import Mathlib

/-!
# Verification of the `balloc` boundary-tag allocator

Shallow embedding of `src/balloc.c` (Brandon's memory allocator): a heap
allocator over a caller-supplied arena of 32-bit words, with boundary tags
(header/footer), sign-as-status, and eight size-class segregated free lists.

Modelling conventions:
* the arena is a total function `Nat → Nat`; every stored word is kept
  below `2^32` by construction of the write primitives' call sites;
* a C `int32_t` value is the word decoded through `toInt32`
  (two's complement); a C `uint32_t` value is the raw word;
* chunk pointers are word offsets of the chunk header into the arena
  (`struct chunk *` is `Option Nat`, `NULL` is `none`);
* C loops (`while`) become fuel-indexed recursions; every fuel parameter at a
  call site is large enough that, on the well-formed states considered by the
  theorems below, the fuel never runs out.
-/

namespace Balloc

/-- `NIL` sentinel offset, `0xFFFFFFFF` in the source. -/
def NIL : Nat := 4294967295

/-- Number of segregated free lists (`BALLOC_LIST_CLASSES`). -/
def BALLOC_LIST_CLASSES : Nat := 8

/-- Decode a 32-bit word as a C `int32_t` (two's complement). -/
def toInt32 (v : Nat) : Int :=
  if v < 2 ^ 31 then (v : Int) else (v : Int) - 2 ^ 32

/-- Encode a C `int32_t` value as a 32-bit word (wrap modulo `2^32`). -/
def ofInt32 (i : Int) : Nat :=
  (i % 2 ^ 32).toNat

/-- The `abs` macro of the source applied to a stored 32-bit word. -/
def int32abs (v : Nat) : Nat :=
  (toInt32 v).natAbs

/-- The `neg` macro of the source: `x < 0 ? x : -x` on `int32_t`. -/
def int32neg (v : Nat) : Int :=
  if toInt32 v < 0 then toInt32 v else -(toInt32 v)

/-- `struct balloc`: arena base and length, class power, the 8 list heads.
`buffer i` is the 32-bit word at word offset `i`; `lists c` is the head
offset of class `c`. -/
structure State where
  buffer : Nat → Nat
  buffer_bytes : Nat
  power : Nat
  lists : Nat → Nat

/-- Read the 32-bit word at word offset `i`. -/
def rd (st : State) (i : Nat) : Nat := st.buffer i

/-- Write the 32-bit word at word offset `i`. -/
def wr (st : State) (i v : Nat) : State :=
  { st with buffer := fun j => if j = i then v else st.buffer j }

/-- Write the head of free list `c`. -/
def wrList (st : State) (c v : Nat) : State :=
  { st with lists := fun j => if j = c then v else st.lists j }

/-- `round_up`: bytes to words, rounding up.  The C source computes
`(byte_size + 0x3) >> 2` in `size_t` (64-bit) and truncates the result to
`uint32_t`. -/
def round_up (byte_size : Nat) : Nat :=
  (((byte_size + 3) % 2 ^ 64) / 4) % 2 ^ 32

/-- `get_chunk`: offset to chunk reference (`NIL` maps to `NULL`). -/
def get_chunk (offset : Nat) : Option Nat :=
  if offset = NIL then none else some offset

/-- `get_offset`: chunk reference to offset (`NULL` maps to `NIL`). -/
def get_offset (chunk : Option Nat) : Nat :=
  match chunk with
  | none => NIL
  | some h => h

/-- `get_ptr`: payload pointer of a chunk (one word past the header). -/
def get_ptr (chunk : Option Nat) : Option Nat :=
  match chunk with
  | none => none
  | some h => some (h + 1)

/-- `from_ptr`: chunk of a payload pointer (one word back). -/
def from_ptr (p : Nat) : Nat := p - 1

/-- `chunk_space`: total words spanned by a chunk, `abs(size) + 2`. -/
def chunk_space (st : State) (h : Nat) : Nat :=
  int32abs (rd st h) + 2

/-- Word offset of a chunk's footer: `&chunk->next + abs(size)`. -/
def footer_off (st : State) (h : Nat) : Nat :=
  h + 1 + int32abs (rd st h)

/-- `check_meta`: header equals footer (compared as `int32_t` loads). -/
def check_meta (st : State) (h : Nat) : Bool :=
  toInt32 (rd st h) == toInt32 (rd st (footer_off st h))

/-- `set_footer`: store a word at the footer offset (computed from the
current header). -/
def set_footer (st : State) (h : Nat) (footer_val : Nat) : State :=
  wr st (footer_off st h) footer_val

/-- `set_size`: store the `int32_t` size in the header, then in the footer
located via the new header. -/
def set_size (st : State) (h : Nat) (size : Int) : State :=
  let st1 := wr st h (ofInt32 size)
  set_footer st1 h (ofInt32 size)

/-- `get_next`: follow a chunk's forward link. -/
def get_next (st : State) (h : Nat) : Option Nat :=
  if rd st (h + 1) = NIL then none else get_chunk (rd st (h + 1))

/-- `get_prev`: follow a chunk's backward link. -/
def get_prev (st : State) (h : Nat) : Option Nat :=
  if rd st (h + 2) = NIL then none else get_chunk (rd st (h + 2))

/-- `get_adj_next`: the chunk starting right after this one's footer, or
`NULL` at or past the arena end (byte comparison in the source). -/
def get_adj_next (st : State) (h : Nat) : Option Nat :=
  if st.buffer_bytes ≤ 4 * (footer_off st h + 1) then none
  else some (footer_off st h + 1)

/-- `get_adj_prev`: the chunk whose footer is the word right before this
one's header, or `NULL` when that word would precede the arena.  The offset
arithmetic `foot - size - 1` is exact on the states considered (the left
neighbour lies inside the arena); `Nat` subtraction stands in for the C
pointer arithmetic. -/
def get_adj_prev (st : State) (h : Nat) : Option Nat :=
  if h = 0 then none
  else some (h - 1 - int32abs (rd st (h - 1)) - 1)

/-- Loop body of `alloc_class`: `comp` is shifted by `power` each round and
wraps modulo `2^32` (it is a `uint32_t`). -/
def alloc_class_go (power asize comp i : Nat) : Nat → Nat
  | 0 => BALLOC_LIST_CLASSES - 1
  | fuel + 1 =>
    if asize < comp then i
    else alloc_class_go power asize ((comp * 2 ^ power) % 2 ^ 32) (i + 1) fuel

/-- `alloc_class`: size class of a chunk word size, parameterised by the
state's `power`. -/
def alloc_class (size : Int) (power : Nat) : Nat :=
  alloc_class_go power size.natAbs ((2 ^ power) % 2 ^ 32) 0 BALLOC_LIST_CLASSES

/-- `remove_chunk_list`: unlink `h` from the list with head `lists c`. -/
def remove_chunk_list (st : State) (h : Nat) (c : Nat) : State :=
  match get_prev st h, get_next st h with
  | none, none => wrList st c NIL
  | none, some nx =>
    let st1 := wrList st c (rd st (h + 1))
    wr st1 (nx + 2) NIL
  | some pv, none => wr st (pv + 1) NIL
  | some pv, some nx =>
    let st1 := wr st (pv + 1) (rd st (h + 1))
    wr st1 (nx + 2) (rd st1 (h + 2))

/-- Walking body of `add_chunk_list`: insert `h` (size-ordered) before the
first strictly larger entry, else append at the tail.  `prev`/`curr` mirror
the two cursors of the C loop; the state is only changed at the insertion
point. -/
def add_chunk_go (st : State) (h : Nat) (c : Nat)
    (prev curr : Option Nat) : Nat → State
  | 0 => st
  | fuel + 1 =>
    match curr with
    | none =>
      match prev with
      | some pv =>
        let st1 := wr st (pv + 1) h
        let st2 := wr st1 (h + 2) pv
        wr st2 (h + 1) NIL
      | none => st
    | some cu =>
      if toInt32 (rd st h) < toInt32 (rd st cu) then
        match prev with
        | none =>
          let st1 := wrList st c h
          let st2 := wr st1 (cu + 2) h
          let st3 := wr st2 (h + 1) cu
          wr st3 (h + 2) NIL
        | some pv =>
          let st1 := wr st (pv + 1) h
          let st2 := wr st1 (cu + 2) h
          let st3 := wr st2 (h + 1) cu
          wr st3 (h + 2) pv
      else
        add_chunk_go st h c (some cu) (get_next st cu) fuel

/-- `add_chunk_list`: insert `h` into the list with head `lists c`,
smallest to largest. -/
def add_chunk_list (st : State) (h : Nat) (c : Nat) (fuel : Nat) : State :=
  if st.lists c = NIL then
    let st1 := wrList st c h
    let st2 := wr st1 (h + 1) NIL
    wr st2 (h + 2) NIL
  else
    add_chunk_go st h c none (get_chunk (st.lists c)) fuel

/-- Fuel used by every loop: ample for any list or chunk walk inside an
arena of `buffer_bytes` bytes. -/
def FUEL (st : State) : Nat := st.buffer_bytes + 2

/-- `remove_free_chunk`: remove from the class computed from the header. -/
def remove_free_chunk (st : State) (h : Nat) : State :=
  remove_chunk_list st h (alloc_class (toInt32 (rd st h)) st.power)

/-- `add_free_chunk`: add to the class computed from the header. -/
def add_free_chunk (st : State) (h : Nat) : State :=
  add_chunk_list st h (alloc_class (toInt32 (rd st h)) st.power) (FUEL st)

/-- Inner walk of `find_best_chunk`: first chunk in the list whose header
is at least `size` (an `int32_t` comparison). -/
def find_walk (st : State) (size : Int) : Option Nat → Nat → Option Nat
  | none, _ => none
  | some _, 0 => none
  | some cu, fuel + 1 =>
    if size ≤ toInt32 (rd st cu) then some cu
    else find_walk st size (get_next st cu) fuel

/-- Class progression of `find_best_chunk`: classes `c, c+1, …, 7`. -/
def find_classes (st : State) (size : Int) : Nat → Nat → Option Nat
  | _, 0 => none
  | c, fuel + 1 =>
    match find_walk st size (get_chunk (st.lists c)) (FUEL st) with
    | some h => some h
    | none => find_classes st size (c + 1) fuel

/-- `find_best_chunk`: best-fit search over the size classes.  The rounded
word size is cast `uint32_t → int32_t` as in the source. -/
def find_best_chunk (st : State) (byte_size : Nat) : Option Nat :=
  let size := toInt32 (round_up byte_size)
  let space_class := alloc_class size st.power
  find_classes st size space_class (BALLOC_LIST_CLASSES - space_class)

/-- `should_break_chunk`: break when the chunk can hold the request plus a
whole minimal chunk.  `size` is a `uint32_t` here (only `0` and `1` are
bumped to `2`). -/
def should_break_chunk (st : State) (h : Nat) (byte_size : Nat) : Bool :=
  let size := max (round_up byte_size) 2
  let space_thresh := round_up (2 * (12 + 4)) + size - 2
  decide (space_thresh ≤ chunk_space st h)

/-- The zeroing loop of `allocate_chunk`: write `count` zero words starting
at offset `i`. -/
def clear_words (st : State) (i : Nat) : Nat → State
  | 0 => st
  | count + 1 => clear_words (wr st i 0) (i + 1) count

/-- The bumped request size used by `allocate_chunk`: `round_up` cast
`uint32_t → int32_t`, raised to 2 when below (`if (size < 2) size = 2`). -/
def bump_size (byte_size : Nat) : Int :=
  max (toInt32 (round_up byte_size)) 2

/-- The split phase of `allocate_chunk`: when the chunk is worth breaking,
shrink it to the bumped size, carve the remainder (`available_space -
size` words) out of the tail as a new chunk and insert it into its free
list; otherwise clobber the two link words.  `available_space` is
`chunk_space - 4` measured before the resize. -/
def break_step (st : State) (h byte_size : Nat) : State :=
  if should_break_chunk st h byte_size then
    match get_adj_next (set_size st h (bump_size byte_size)) h with
    | some nh =>
      add_free_chunk
        (set_size (set_size st h (bump_size byte_size)) nh
          (((chunk_space st h - 4 : Nat) : Int) - bump_size byte_size)) nh
    | none => set_size st h (bump_size byte_size)
  else
    wr (wr st (h + 1) NIL) (h + 2) NIL

/-- The optional zeroing phase of `allocate_chunk`: write zero to
`round_up byte_size` payload words. -/
def clear_step (st : State) (h byte_size : Nat) (clear : Bool) : State :=
  if clear then clear_words st (h + 1) (round_up byte_size) else st

/-- `allocate_chunk`: split the chunk if worthwhile, optionally zero the
requested words, then flip the header/footer sign to taken.  Returns the
state; the resulting chunk is `h` itself (the C function returns its
argument). -/
def allocate_chunk (st : State) (h : Nat) (byte_size : Nat) (clear : Bool) :
    State :=
  set_size (clear_step (break_step st h byte_size) h byte_size clear) h
    (int32neg (rd (clear_step (break_step st h byte_size) h byte_size clear) h))

/-- `allocate`: find, unlink and take a chunk; `none` on failure. -/
def allocate (st : State) (byte_size : Nat) (clear : Bool) :
    Option Nat × State :=
  if byte_size = 0 then (none, st)
  else
    match find_best_chunk st byte_size with
    | none => (none, st)
    | some h =>
      let st1 := remove_free_chunk st h
      (some h, allocate_chunk st1 h byte_size clear)

/-- `join`: merge two adjacent chunks, `l` keeps the position; the new size
is `l->size + r->size + 2`. -/
def join (st : State) (l r : Nat) : State :=
  set_size st l (toInt32 (rd st l) + toInt32 (rd st r) + 2)

/-- `COAL_L` direction bit. -/
def COAL_L : Nat := 1

/-- `COAL_R` direction bit. -/
def COAL_R : Nat := 2

/-- Right loop of `coalesce`: absorb free right neighbours. -/
def coalesce_right (st : State) (h : Nat) : Nat → State
  | 0 => st
  | fuel + 1 =>
    match get_adj_next st h with
    | some r =>
      if 0 < toInt32 (rd st r) then
        let st1 := remove_free_chunk st r
        let st2 := join st1 h r
        coalesce_right st2 h fuel
      else st
    | none => st

/-- Left loop of `coalesce`: absorb free left neighbours; the accumulating
chunk moves to the left operand after each join. -/
def coalesce_left (st : State) (h : Nat) : Nat → Nat × State
  | 0 => (h, st)
  | fuel + 1 =>
    match get_adj_prev st h with
    | some l =>
      if 0 < toInt32 (rd st l) then
        let st1 := remove_free_chunk st l
        let st2 := join st1 l h
        coalesce_left st2 l fuel
      else (h, st)
    | none => (h, st)

/-- `coalesce`: merge `h` with the free neighbours in the direction set
`dir`; returns the resulting chunk and state. -/
def coalesce (st : State) (h : Nat) (dir : Nat) : Nat × State :=
  let st1 := if Nat.land dir COAL_R ≠ 0 then coalesce_right st h (FUEL st) else st
  if Nat.land dir COAL_L ≠ 0 then coalesce_left st1 h (FUEL st1) else (h, st1)

/-- Right walk of `coalesce_probe`. -/
def probe_right (st : State) (h : Nat) (acc : Nat) : Nat → Nat
  | 0 => acc
  | fuel + 1 =>
    match get_adj_next st h with
    | some r =>
      if 0 < toInt32 (rd st r) then
        probe_right st r (acc + chunk_space st r) fuel
      else acc
    | none => acc

/-- Left walk of `coalesce_probe`. -/
def probe_left (st : State) (h : Nat) (acc : Nat) : Nat → Nat
  | 0 => acc
  | fuel + 1 =>
    match get_adj_prev st h with
    | some l =>
      if 0 < toInt32 (rd st l) then
        probe_left st l (acc + chunk_space st l) fuel
      else acc
    | none => acc

/-- `coalesce_probe`: the span a coalesce of `h` in directions `dir` would
produce, computed without modifying anything. -/
def coalesce_probe (st : State) (h : Nat) (dir : Nat) : Nat :=
  let space := chunk_space st h
  let space1 :=
    if Nat.land dir COAL_R ≠ 0 then probe_right st h space (FUEL st) else space
  if Nat.land dir COAL_L ≠ 0 then probe_left st h space1 (FUEL st) else space1

/-- Ascending loop of `transfer` (`dst[i] = src[i]` for `i = 0 … n-1`). -/
def transfer_asc (st : State) (dst src : Nat) : Nat → Nat → State
  | _, 0 => st
  | i, count + 1 =>
    transfer_asc (wr st (dst + i) (rd st (src + i))) dst src (i + 1) count

/-- Descending loop of `transfer` (`dst[i] = src[i]` for `i = n-1 … 0`). -/
def transfer_desc (st : State) (dst src : Nat) : Nat → State
  | 0 => st
  | i + 1 =>
    transfer_desc (wr st (dst + i) (rd st (src + i))) dst src i

/-- `transfer`: copy `n` words; ascending when `src < dst`, descending when
`src > dst`, no-op when equal (exactly as the source orders the cases). -/
def transfer (st : State) (dst src : Nat) (n : Nat) : State :=
  if src < dst then transfer_asc st dst src 0 n
  else if dst < src then transfer_desc st dst src n
  else st

/-- `deallocate`: mark free, coalesce both ways, insert into a free list. -/
def deallocate (st : State) (h : Nat) : State :=
  let st1 := set_size st h (int32abs (rd st h) : Int)
  let hc := coalesce st1 h (Nat.lor COAL_L COAL_R)
  add_free_chunk hc.2 hc.1

/-- `reallocate`: the four-case resize over a taken chunk `h`. -/
def reallocate (st : State) (h : Nat) (byte_size : Nat) :
    Option Nat × State :=
  let size := round_up byte_size
  if size ≤ int32abs (rd st h) then (some h, st)
  else
    let src := h + 1
    let num_words := int32abs (rd st h)
    let coal_space := coalesce_probe st h COAL_R - 2
    if size ≤ coal_space then
      let st1 := set_size st h (int32abs (rd st h) : Int)
      let hc := coalesce st1 h COAL_R
      (some hc.1, allocate_chunk hc.2 hc.1 byte_size false)
    else
      let coal_space2 :=
        coal_space + coalesce_probe st h COAL_L - chunk_space st h
      if size ≤ coal_space2 then
        let st1 := set_size st h (int32abs (rd st h) : Int)
        let hc := coalesce st1 h (Nat.lor COAL_L COAL_R)
        let st3 := allocate_chunk hc.2 hc.1 byte_size false
        (some hc.1, transfer st3 (hc.1 + 1) src num_words)
      else
        match allocate st byte_size false with
        | (none, stF) => (none, stF)
        | (some nh, st1) =>
          let st2 := transfer st1 (nh + 1) src num_words
          (some nh, deallocate st2 h)

/-- `balloc_init`: set up the single spanning free chunk and the lists. -/
def balloc_init (buff : Nat → Nat) (buff_size : Nat) (power : Nat) : State :=
  let st0 : State :=
    { buffer := buff, buffer_bytes := buff_size, power := power,
      lists := fun _ => NIL }
  let size : Int := (toInt32 (round_up buff_size)) - 2
  let st1 := wr st0 0 (ofInt32 size)
  let st2 := wr st1 1 NIL
  let st3 := wr st2 2 NIL
  let st4 := set_footer st3 0 (rd st3 0)
  add_free_chunk st4 0

/-- `balloc_malloc`. -/
def balloc_malloc (st : State) (size : Nat) : Option Nat × State :=
  let r := allocate st size false
  (get_ptr r.1, r.2)

/-- `balloc_calloc`: the element count and size are multiplied in `size_t`
arithmetic (wrap modulo `2^64`). -/
def balloc_calloc (st : State) (nmemb size : Nat) : Option Nat × State :=
  let r := allocate st ((nmemb * size) % 2 ^ 64) true
  (get_ptr r.1, r.2)

/-- `balloc_free`: `NULL` and failed checks are silent no-ops. -/
def balloc_free (st : State) (ptr : Option Nat) : State :=
  match ptr with
  | none => st
  | some p =>
    let h := from_ptr p
    if ¬ check_meta st h then st
    else if 0 ≤ toInt32 (rd st h) then st
    else deallocate st h

/-- `balloc_realloc`. -/
def balloc_realloc (st : State) (ptr : Option Nat) (size : Nat) :
    Option Nat × State :=
  match ptr with
  | none => balloc_malloc st size
  | some p =>
    if size = 0 then (none, balloc_free st (some p))
    else
      let h := from_ptr p
      if ¬ check_meta st h then (none, st)
      else if 0 ≤ toInt32 (rd st h) then (none, st)
      else
        let r := reallocate st h size
        (get_ptr r.1, r.2)

/-! ## Arena parse and well-formedness -/

/-- Parse the chunk starting at `pos` and all chunks after it, up to the
arena end `N` (in words): the list of chunk header offsets.  `none` when
the walk does not land exactly on `N` (the chunks do not tile the arena)
or the fuel runs out. -/
def chunksFrom (st : State) (N : Nat) : Nat → Nat → Option (List Nat)
  | _, 0 => none
  | pos, fuel + 1 =>
    if pos = N then some []
    else if N < pos then none
    else (chunksFrom st N (pos + chunk_space st pos) fuel).map (pos :: ·)

/-- All chunk header offsets of the arena, in address order; `none` when
the chunks do not tile the arena. -/
def chunks (st : State) : Option (List Nat) :=
  chunksFrom st (st.buffer_bytes / 4) 0 (st.buffer_bytes + 2)

/-- The chunk offsets of the arena (empty when the parse fails). -/
def the_chunks (st : State) : List Nat := (chunks st).getD []

/-- Walk a free list from a head offset, following forward links; `none`
when the fuel runs out (a cyclic list). -/
def walkList (st : State) : Nat → Nat → Option (List Nat)
  | _, 0 => none
  | head, fuel + 1 =>
    if head = NIL then some []
    else (walkList st (rd st (head + 1)) fuel).map (head :: ·)

/-- The members of class list `c`, in list order (empty on a failed
walk). -/
def class_list (st : State) (c : Nat) : List Nat :=
  (walkList st (st.lists c) (FUEL st)).getD []

/-- Every class list walk terminates within the standard fuel. -/
def lists_walkable (st : State) : Prop :=
  ∀ c, c < 8 → (walkList st (st.lists c) (FUEL st)).isSome

instance (st : State) : Decidable (lists_walkable st) := by
  unfold lists_walkable
  infer_instance

/-- The backward links of a list of chunks form the chain
`NIL ← h₀ ← h₁ ← …` (each member's `prev` field names its predecessor). -/
def prev_chain (st : State) : Nat → List Nat → Bool
  | _, [] => true
  | pv, h :: t => (rd st (h + 2) == pv) && prev_chain st h t

/-- The forward links of a list of chunks name the successors, ending in
`NIL`. -/
def next_chain (st : State) : List Nat → Prop
  | [] => True
  | [h] => rd st (h + 1) = NIL
  | h :: h' :: t => rd st (h + 1) = h' ∧ next_chain st (h' :: t)

/-- Structurally well-formed allocator state: the geometry preconditions
of the specification, a tiling parse with matching boundary tags and
minimal sizes, 32-bit words, and class lists that are `NIL`-terminated,
acyclic, back-linked and consistent with the sign convention and the
class function.  (Coverage of the free chunks is stated separately in
`wf`: during a release the chunk being freed is off every list.) -/
def wf_base (st : State) : Prop :=
  st.buffer_bytes % 4 = 0 ∧
  16 ≤ st.buffer_bytes ∧
  st.buffer_bytes ≤ 2 ^ 30 ∧
  1 ≤ st.power ∧ st.power ≤ 8 ∧
  (∀ i < st.buffer_bytes / 4, rd st i < 2 ^ 32) ∧
  (chunks st).isSome ∧
  (∀ h ∈ the_chunks st, 2 ≤ int32abs (rd st h) ∧
    rd st (footer_off st h) = rd st h) ∧
  (∀ c < 8, (walkList st (st.lists c) (FUEL st)).isSome) ∧
  (∀ c < 8, (class_list st c).Nodup ∧ prev_chain st NIL (class_list st c) = true ∧
    ∀ m ∈ class_list st c, m ∈ the_chunks st ∧ 0 < toInt32 (rd st m) ∧
      alloc_class (toInt32 (rd st m)) st.power = c)

instance (st : State) : Decidable (wf_base st) := by
  unfold wf_base
  infer_instance

/-- Well-formed allocator state: structural well-formedness plus coverage
(every free chunk sits on the list of its class). -/
def wf (st : State) : Prop :=
  wf_base st ∧
  (∀ h ∈ the_chunks st, 0 < toInt32 (rd st h) →
    h ∈ class_list st (alloc_class (toInt32 (rd st h)) st.power))

instance (st : State) : Decidable (wf st) := by
  unfold wf
  infer_instance

/-- Offsets that are on some free list of `st` and differ from `h` (the
chunks that stay linked while `h` is being unlinked and consumed). -/
def other_members (st : State) (h v : Nat) : Prop :=
  (∃ c', c' < 8 ∧ v ∈ class_list st c') ∧ v ≠ h

/-- The free chunks of `st` other than `h`: the chunks whose link words
the coalescer may rewrite while working on `h`. -/
def free_starts (st : State) (h v : Nat) : Prop :=
  v ∈ the_chunks st ∧ 0 < toInt32 (rd st v) ∧ v ≠ h

/-- Total span of the initial run of free chunks of a chunk sequence (the
chunks a rightward or leftward coalesce would absorb). -/
def freePrefixSum (st : State) : List Nat → Nat
  | [] => 0
  | p :: l =>
    if 0 < toInt32 (rd st p) then chunk_space st p + freePrefixSum st l
    else 0

/-- The list `l` tiles the words from `a` to `b`: consecutive chunk
offsets starting at `a` whose spans abut, ending exactly at `b`. -/
def tiles (st : State) : Nat → List Nat → Nat → Prop
  | a, [], b => a = b
  | a, p :: l, b => p = a ∧ tiles st (a + chunk_space st a) l b

/-- Total span of the final run of free chunks of a chunk sequence (the
chunks a leftward coalesce would absorb). -/
def freeSuffixSum (st : State) (l : List Nat) : Nat :=
  freePrefixSum st l.reverse

/-- Structural well-formedness with coverage exempting the chunk `h`: the
state of the allocator in the middle of a release, when `h` is already
marked free but not yet linked into a list. -/
def wf_except (st : State) (h : Nat) : Prop :=
  wf_base st ∧
  (∀ v ∈ the_chunks st, 0 < toInt32 (rd st v) → v ≠ h →
    v ∈ class_list st (alloc_class (toInt32 (rd st v)) st.power)) ∧
  (∀ c, c < 8 → h ∉ class_list st c)

instance (st : State) (h : Nat) : Decidable (wf_except st h) := by
  unfold wf_except
  infer_instance

/-- Invariant of the coalesce loops, measured against the pre-coalesce
state `st`: the accumulated chunk spans `[pos, pos + A)` and carries a
positive boundary tag for it; every chunk of `st` outside that span keeps
its tags; the link words of the free chunks other than `h` still point at
free chunks other than `h` (or `NIL`), as do the list heads; and the word
at `h` stays a nonnegative header once the accumulator has moved left of
`h`. -/
def coal_inv (st : State) (h : Nat) (s : State) (pos A : Nat) : Prop :=
  s.buffer_bytes = st.buffer_bytes ∧
  s.power = st.power ∧
  pos ∈ the_chunks st ∧
  4 ≤ A ∧ pos + A ≤ st.buffer_bytes / 4 ∧
  rd s pos = ofInt32 ((A : Int) - 2) ∧
  pos ≤ h ∧ h < pos + A ∧ (pos < h → 0 ≤ toInt32 (rd s h)) ∧
  (∀ p ∈ the_chunks st, p + chunk_space st p ≤ pos ∨ pos + A ≤ p →
    rd s p = rd st p ∧ rd s (footer_off st p) = rd st (footer_off st p)) ∧
  (∀ v, free_starts st h v →
    (rd s (v + 1) = NIL ∨ free_starts st h (rd s (v + 1))) ∧
    (rd s (v + 2) = NIL ∨ free_starts st h (rd s (v + 2)))) ∧
  (∀ c, c < 8 → s.lists c = NIL ∨ free_starts st h (s.lists c)) ∧
  (∃ e ∈ the_chunks st, e + chunk_space st e = pos + A)

/-! ## Claim-side definitions and concrete states -/

/-- Best-fit search as the specification words it: start at class
`class(S)`, walk that class's list from the head and return the first
chunk whose header is at least `S`; if a class yields no fit move to the
next class; `none` when no class in `[class(S), 8)` yields a fit. -/
def search_spec (st : State) (S : Int) : Option Nat :=
  ((List.range 8).drop (alloc_class S st.power)).findSome? fun c =>
    (class_list st c).find? fun h => S ≤ toInt32 (rd st h)

/-- Size-class formula as the specification words it: the smallest
`i ∈ [0,8)` with `S < 2^((i+1)·p)`, and class `7` when no such `i`
exists. -/
def claim_class (S p : Nat) : Nat :=
  (((List.range 8).find? fun i => S < 2 ^ ((i + 1) * p))).getD 7

/-- The `i`-th class bound as the code computes it: `2^((i+1)·p)` wrapped
modulo `2^32` (the comparand is a `uint32_t`). -/
def wrapped_bound (p i : Nat) : Nat := 2 ^ ((i + 1) * p) % 2 ^ 32

/-- Size-class formula amended for the 32-bit wrap of the comparand: the
smallest `i ∈ [0,8)` with `S < 2^((i+1)·p) mod 2^32`, and class `7` when no
such `i` exists. -/
def claim_class_wrapped (S p : Nat) : Nat :=
  (((List.range 8).find? fun i => S < wrapped_bound p i)).getD 7

/-- A 12-word arena: a taken chunk of size 2 at offset 0 whose payload
words hold `0xDEADBEEF` and `0xCAFEBABE`, and a free chunk of size 6 at
offset 4 threaded on class list 1. -/
def stC2 : State :=
  { buffer := fun i =>
      if i = 0 then ofInt32 (-2)
      else if i = 1 then 3735928559
      else if i = 2 then 3405691582
      else if i = 3 then ofInt32 (-2)
      else if i = 4 then 6
      else if i = 5 then NIL
      else if i = 6 then NIL
      else if i = 11 then 6
      else 0,
    buffer_bytes := 48, power := 2,
    lists := fun c => if c = 1 then 4 else NIL }

/-- An 8-word arena holding one free chunk of size 6 whose last payload
word is the junk value `0x12345678`; class list 1 holds the chunk. -/
def stC3 : State :=
  { buffer := fun i =>
      if i = 0 then 6
      else if i = 1 then NIL
      else if i = 2 then NIL
      else if i = 6 then 305419896
      else if i = 7 then 6
      else 0,
    buffer_bytes := 32, power := 2,
    lists := fun c => if c = 1 then 0 else NIL }

/-- An 8-word arena fully occupied by one taken chunk of size 6 (every
free list is empty), so any allocation fails. -/
def stFull : State :=
  { buffer := fun i =>
      if i = 0 then ofInt32 (-6)
      else if i = 7 then ofInt32 (-6)
      else 0,
    buffer_bytes := 32, power := 2,
    lists := fun _ => NIL }

/-- An 8-word arena caught in mid-release: the free chunk of size 2 at
offset 0 is marked free but sits on no list, and its free right neighbour
of size 2 at offset 4 is threaded on class list 0. -/
def stC8 : State :=
  { buffer := fun i =>
      if i = 0 then 2
      else if i = 3 then 2
      else if i = 4 then 2
      else if i = 5 then NIL
      else if i = 6 then NIL
      else if i = 7 then 2
      else 0,
    buffer_bytes := 32, power := 2,
    lists := fun c => if c = 0 then 4 else NIL }

/-- The after-operation invariant of the specification: the chunks parse
from word 0 and tile the arena (`chunks` succeeds exactly when the spans
`size + 2`, laid end to end from word 0, land on `floor(B/4)`), their
spans sum to `floor(B/4)`, and every chunk's header word equals its
footer word. -/
def tiling_meta (st : State) : Prop :=
  (chunks st).isSome ∧
  ((the_chunks st).map (chunk_space st)).sum = st.buffer_bytes / 4 ∧
  ∀ h ∈ the_chunks st, rd st (footer_off st h) = rd st h

instance (st : State) : Decidable (tiling_meta st) := by
  unfold tiling_meta
  infer_instance

/-- First state of the C1 trace: `init` on a zeroed 1048-byte arena with
`power = 1`. -/
def stC1_0 : State := balloc_init (fun _ => 0) 1048 1

/-- Second state of the C1 trace: after `allocate(520)` (the returned
pointer is word offset 1). -/
def stC1_1 : State := (balloc_malloc stC1_0 520).2

/-- Third state of the C1 trace: after `resize` of that pointer to `2^33`
bytes (a legal 64-bit `size_t` request). -/
def stC1_2 : State :=
  (balloc_realloc stC1_1 (balloc_malloc stC1_0 520).1 (2 ^ 33)).2

end Balloc

namespace Balloc

/-! ## Theorems -/

theorem allocate_fail_eq (st : State) (byte_size : Nat) (clear : Bool)
    (hn : (allocate st byte_size clear).1 = none) :
    (allocate st byte_size clear).2 = st := by
  unfold allocate at *
  by_cases h0 : byte_size = 0
  · simp [h0]
  · simp only [h0, if_false] at hn ⊢
    cases hfb : find_best_chunk st byte_size with
    | none => simp [hfb]
    | some h => simp [hfb] at hn

/-- Claim C9: releasing the nil pointer is a no-op: `balloc_free` returns
immediately on `NULL`, leaving the free lists and every arena word
unchanged. -/
theorem C9_free_nil (st : State) : balloc_free st none = st := rfl

/-- Claim C10: `balloc_calloc` multiplies `nmemb` and `elem_size` with
unchecked `size_t` multiplication (wrap modulo `2^64`) and then behaves
exactly as a zeroing `allocate` of the wrapped byte count; in particular a
product that wraps to `0` returns `nil` with the state unchanged. -/
theorem C10_calloc_wraps (st : State) (nmemb size : Nat) :
    balloc_calloc st nmemb size =
      (get_ptr (allocate st ((nmemb * size) % 2 ^ 64) true).1,
       (allocate st ((nmemb * size) % 2 ^ 64) true).2) ∧
    ((nmemb * size) % 2 ^ 64 = 0 → balloc_calloc st nmemb size = (none, st)) := by
  refine ⟨rfl, fun h0 => ?_⟩
  have h0' : nmemb * size % 18446744073709551616 = 0 := by
    have : (2 : Nat) ^ 64 = 18446744073709551616 := by norm_num
    rw [this] at h0; exact h0
  simp [balloc_calloc, allocate, get_ptr, h0, h0']

theorem C10_calloc_wraps_witness :
    balloc_calloc stFull (2 ^ 32) (2 ^ 32) = (none, stFull) :=
  (C10_calloc_wraps stFull (2 ^ 32) (2 ^ 32)).2 (by norm_num)

/-- Claim C7: when `reallocate` returns `nil` (the relocate case with the
fresh allocation failing), the allocator state is unchanged: the original
chunk keeps its header, footer and payload, stays taken, and is not
released. -/
theorem C7_failed_resize_no_change (st : State) (h byte_size : Nat)
    (hn : (reallocate st h byte_size).1 = none) :
    (reallocate st h byte_size).2 = st := by
  unfold reallocate at *
  by_cases h1 : round_up byte_size ≤ int32abs (rd st h)
  · simp [h1] at hn
  · simp only [h1, if_false] at hn ⊢
    by_cases h2 : round_up byte_size ≤ coalesce_probe st h COAL_R - 2
    · simp [h2] at hn
    · simp only [h2, if_false] at hn ⊢
      by_cases h3 : round_up byte_size ≤
          coalesce_probe st h COAL_R - 2 + coalesce_probe st h COAL_L -
            chunk_space st h
      · simp [h3] at hn
      · simp only [h3, if_false] at hn ⊢
        cases hA : allocate st byte_size false with
        | mk o stA =>
          cases o with
          | none =>
            have : (allocate st byte_size false).2 = st :=
              allocate_fail_eq st byte_size false (by simp [hA])
            simp only [hA] at this ⊢
            simpa using this
          | some nh => simp [hA] at hn

theorem C7_failed_resize_no_change_witness :
    (reallocate stFull 0 100).2 = stFull :=
  C7_failed_resize_no_change stFull 0 100 (by decide)

/-- Claim C2 (code bug): on the concrete state `stC2`, resizing the live
pointer at word 1 (old payload 8 bytes: `0xDEADBEEF`, `0xCAFEBABE`) to 28
bytes takes the coalesce-right in-place path without splitting, and the
code overwrites both old payload words with `NIL = 0xFFFFFFFF` instead of
preserving them. -/
theorem C2_resize_destroys_payload :
    (balloc_realloc stC2 (some 1) 28).1 = some 1 ∧
    rd stC2 1 = 3735928559 ∧
    rd stC2 2 = 3405691582 ∧
    rd (balloc_realloc stC2 (some 1) 28).2 1 = 4294967295 ∧
    rd (balloc_realloc stC2 (some 1) 28).2 2 = 4294967295 := by
  decide

/-- Claim C3 (counterexample): on the concrete state `stC3`, a successful
zero-allocation of 20 bytes returns a chunk with `abs(header) = 6` whose
last payload word still holds the junk value `0x12345678`: only the first
`ceil(20/4) = 5` payload words are zeroed. -/
theorem C3_zero_fill_counterexample :
    (balloc_calloc stC3 1 20).1 = some 1 ∧
    int32abs (rd (balloc_calloc stC3 1 20).2 0) = 6 ∧
    rd (balloc_calloc stC3 1 20).2 1 = 0 ∧
    rd (balloc_calloc stC3 1 20).2 6 = 305419896 := by
  decide

theorem alloc_class_go_spec (power asize : Nat) :
    ∀ fuel i comp, comp = wrapped_bound power i → i + fuel = 8 →
    alloc_class_go power asize comp i fuel =
      (((List.range 8).drop i).find? fun j => asize < wrapped_bound power j).getD 7 := by
  intro fuel
  induction fuel with
  | zero =>
    intro i comp hc hi
    simp only [Nat.add_zero] at hi
    subst hi
    simp [alloc_class_go, BALLOC_LIST_CLASSES, List.drop_eq_nil_of_le]
  | succ f ih =>
    intro i comp hc hi
    have hilt : i < 8 := by omega
    have hdrop : (List.range 8).drop i = i :: (List.range 8).drop (i + 1) := by
      rw [List.drop_eq_getElem_cons (by simpa using hilt)]
      simp
    rw [hdrop]
    simp only [alloc_class_go, List.find?_cons]
    by_cases hlt : asize < comp
    · have hlt' : asize < wrapped_bound power i := hc ▸ hlt
      rw [if_pos hlt, decide_eq_true hlt']
      simp
    · have hlt' : ¬ asize < wrapped_bound power i := hc ▸ hlt
      rw [if_neg hlt, decide_eq_false hlt']
      refine ih (i + 1) (comp * 2 ^ power % 2 ^ 32) ?_ (by omega)
      rw [hc, wrapped_bound, wrapped_bound, Nat.mod_mul_mod, ← pow_add]
      congr 2
      ring

/-- Claim C4 (counterexample): with power 8 and chunk word size `2^24`,
the code's class is 7 while the claimed formula (smallest `i` with
`S < 2^((i+1)·p)`) yields 3: the `uint32_t` comparand wraps to 0 from
`i = 3` on. -/
theorem C4_class_counterexample :
    alloc_class (2 ^ 24) 8 = 7 ∧ claim_class (2 ^ 24) 8 = 3 := by
  decide

/-- Claim C4 (amended): for every chunk word size `S` and power `p`, the
size class assigned by the code — the function used by free-list
insertion, removal and search-start — is the smallest `i ∈ [0,8)` such
that `S < 2^((i+1)·p) mod 2^32` (the comparand is a `uint32_t` and
wraps), and class 7 when no such `i` exists. -/
theorem C4_class_amended (S p : Nat) :
    alloc_class (S : Int) p = claim_class_wrapped S p := by
  rw [alloc_class, claim_class_wrapped, Int.natAbs_ofNat]
  have h0 : ((2 : Nat) ^ p) % 2 ^ 32 = wrapped_bound p 0 := by
    rw [wrapped_bound]
    norm_num
  rw [h0]
  have := alloc_class_go_spec p S BALLOC_LIST_CLASSES 0 (wrapped_bound p 0) rfl rfl
  simpa using this

theorem alloc_class_le (size : Int) (power : Nat) :
    alloc_class size power ≤ 7 := by
  rw [alloc_class]
  have key : ∀ f i c, i + f = 8 → alloc_class_go power size.natAbs c i f ≤ 7 := by
    intro f
    induction f with
    | zero =>
      intro i c hi
      simp [alloc_class_go, BALLOC_LIST_CLASSES]
    | succ f ihf =>
      intro i c hi
      rw [alloc_class_go]
      split
      · omega
      · exact ihf (i + 1) _ (by omega)
  exact key BALLOC_LIST_CLASSES 0 _ rfl

theorem get_next_eq (st : State) (h : Nat) :
    get_next st h = get_chunk (rd st (h + 1)) := by
  rw [get_next, get_chunk]
  split_ifs <;> rfl

theorem find_walk_eq (st : State) (S : Int) :
    ∀ fuel head L, walkList st head fuel = some L →
    find_walk st S (get_chunk head) fuel =
      L.find? fun h => S ≤ toInt32 (rd st h) := by
  intro fuel
  induction fuel with
  | zero => intro head L hw; simp [walkList] at hw
  | succ f ih =>
    intro head L hw
    rw [walkList] at hw
    by_cases hnil : head = NIL
    · subst hnil
      rw [if_pos rfl] at hw
      have hL : L = [] := by
        injection hw with h
        exact h.symm
      subst hL
      simp [get_chunk, find_walk]
    · rw [if_neg hnil] at hw
      cases hw' : walkList st (rd st (head + 1)) f with
      | none => rw [hw'] at hw; simp at hw
      | some L' =>
        rw [hw'] at hw
        simp only [Option.map_some', Option.some.injEq] at hw
        subst hw
        rw [get_chunk, if_neg hnil]
        rw [find_walk, List.find?_cons]
        by_cases hfit : S ≤ toInt32 (rd st head)
        · rw [if_pos hfit, decide_eq_true hfit]
        · rw [if_neg hfit, decide_eq_false hfit, get_next_eq]
          exact ih _ _ hw'

theorem find_classes_eq (st : State) (S : Int) (hw : lists_walkable st) :
    ∀ fuel c, c + fuel = 8 →
    find_classes st S c fuel =
      ((List.range 8).drop c).findSome? fun cl =>
        (class_list st cl).find? fun h => S ≤ toInt32 (rd st h) := by
  intro fuel
  induction fuel with
  | zero =>
    intro c hc
    have : c = 8 := by omega
    subst this
    simp [find_classes, List.drop_eq_nil_of_le]
  | succ f ih =>
    intro c hc
    have hclt : c < 8 := by omega
    have hdrop : (List.range 8).drop c = c :: (List.range 8).drop (c + 1) := by
      rw [List.drop_eq_getElem_cons (by simpa using hclt)]
      simp
    rw [hdrop, find_classes, List.findSome?_cons]
    obtain ⟨L, hL⟩ := Option.isSome_iff_exists.mp (hw c hclt)
    have hcl : class_list st c = L := by rw [class_list, hL]; rfl
    rw [find_walk_eq st S (FUEL st) (st.lists c) L hL, hcl]
    cases hfind : L.find? fun h => S ≤ toInt32 (rd st h) with
    | some h => rfl
    | none => exact ih (c + 1) (by omega)

theorem find_best_eq_search (st : State) (byte_size : Nat)
    (hw : lists_walkable st) :
    find_best_chunk st byte_size =
      search_spec st (toInt32 (round_up byte_size)) := by
  rw [find_best_chunk, search_spec]
  have hle : alloc_class (toInt32 (round_up byte_size)) st.power ≤ 8 :=
    le_trans (alloc_class_le _ _) (by norm_num)
  exact find_classes_eq st (toInt32 (round_up byte_size)) hw
    (BALLOC_LIST_CLASSES - alloc_class (toInt32 (round_up byte_size)) st.power)
    (alloc_class (toInt32 (round_up byte_size)) st.power)
    (by simp [BALLOC_LIST_CLASSES] at hle ⊢; omega)

/-- Claim C5: the allocation search starts at the class of the rounded
word size, walks that class's list from the head and returns the first
chunk whose header is at least the rounded size; when a class yields no
fit it advances to the next class, and when no class in `[class(S), 8)`
yields a fit, `allocate` returns `nil`. -/
theorem C5_best_fit_search (st : State) (byte_size : Nat)
    (hw : lists_walkable st) :
    find_best_chunk st byte_size =
      search_spec st (toInt32 (round_up byte_size)) ∧
    (∀ clear, 0 < byte_size →
      (allocate st byte_size clear).1 = find_best_chunk st byte_size) := by
  constructor
  · exact find_best_eq_search st byte_size hw
  · intro clear hpos
    rw [allocate]
    rw [if_neg (by omega)]
    cases hfb : find_best_chunk st byte_size with
    | none => simp
    | some h => simp

/-! ### Codec and memory-primitive lemmas -/

theorem ofInt32_lt (i : Int) : ofInt32 i < 2 ^ 32 := by
  rw [ofInt32]
  omega

theorem toInt32_ofInt32 {i : Int} (h1 : -(2 ^ 31) ≤ i) (h2 : i < 2 ^ 31) :
    toInt32 (ofInt32 i) = i := by
  rw [toInt32, ofInt32]
  split_ifs with hc <;> omega

theorem int32abs_ofInt32 {i : Int} (h1 : -(2 ^ 31) ≤ i) (h2 : i < 2 ^ 31) :
    int32abs (ofInt32 i) = i.natAbs := by
  rw [int32abs, toInt32_ofInt32 h1 h2]

theorem toInt32_small {v : Nat} (h : v < 2 ^ 31) : toInt32 v = (v : Int) := by
  rw [toInt32, if_pos h]

theorem int32abs_small {v : Nat} (h : v < 2 ^ 31) : int32abs v = v := by
  rw [int32abs, toInt32_small h]
  exact Int.natAbs_ofNat v

theorem rd_wr (st : State) (i v j : Nat) :
    rd (wr st i v) j = if j = i then v else rd st j := rfl

theorem rd_wr_self (st : State) (i v : Nat) : rd (wr st i v) i = v := by
  rw [rd_wr, if_pos rfl]

theorem rd_wr_ne (st : State) (i v j : Nat) (h : j ≠ i) :
    rd (wr st i v) j = rd st j := by
  rw [rd_wr, if_neg h]

theorem wr_bytes (st : State) (i v : Nat) :
    (wr st i v).buffer_bytes = st.buffer_bytes := rfl

theorem wr_power (st : State) (i v : Nat) : (wr st i v).power = st.power := rfl

theorem wr_lists (st : State) (i v : Nat) : (wr st i v).lists = st.lists := rfl

theorem rd_wrList (st : State) (c v j : Nat) : rd (wrList st c v) j = rd st j := rfl

theorem wrList_bytes (st : State) (c v : Nat) :
    (wrList st c v).buffer_bytes = st.buffer_bytes := rfl

theorem wrList_power (st : State) (c v : Nat) :
    (wrList st c v).power = st.power := rfl

theorem wrList_lists (st : State) (c v j : Nat) :
    (wrList st c v).lists j = if j = c then v else st.lists j := rfl

theorem set_size_eq (st : State) (h : Nat) (size : Int) :
    set_size st h size =
      wr (wr st h (ofInt32 size)) (h + 1 + int32abs (ofInt32 size))
        (ofInt32 size) := by
  rw [set_size, set_footer, footer_off]
  rw [rd_wr_self]

theorem rd_set_size (st : State) (h : Nat) (size : Int) (q : Nat)
    (hq1 : q ≠ h) (hq2 : q ≠ h + 1 + int32abs (ofInt32 size)) :
    rd (set_size st h size) q = rd st q := by
  rw [set_size_eq, rd_wr_ne _ _ _ _ hq2, rd_wr_ne _ _ _ _ hq1]

theorem set_size_bytes (st : State) (h : Nat) (size : Int) :
    (set_size st h size).buffer_bytes = st.buffer_bytes := rfl

theorem set_size_power (st : State) (h : Nat) (size : Int) :
    (set_size st h size).power = st.power := rfl

theorem set_size_lists (st : State) (h : Nat) (size : Int) :
    (set_size st h size).lists = st.lists := rfl

theorem clear_words_rd_out (q : Nat) :
    ∀ count st i, q < i ∨ i + count ≤ q →
      rd (clear_words st i count) q = rd st q := by
  intro count
  induction count with
  | zero => intro st i _; rfl
  | succ c ih =>
    intro st i hq
    rw [clear_words, ih (wr st i 0) (i + 1) (by omega),
      rd_wr_ne _ _ _ _ (by omega)]

theorem clear_words_rd_in (q : Nat) :
    ∀ count st i, i ≤ q → q < i + count →
      rd (clear_words st i count) q = 0 := by
  intro count
  induction count with
  | zero => intro st i h1 h2; omega
  | succ c ih =>
    intro st i h1 h2
    rw [clear_words]
    by_cases hq : q = i
    · subst hq
      rw [clear_words_rd_out q c (wr st q 0) (q + 1) (by omega), rd_wr_self]
    · exact ih (wr st i 0) (i + 1) (by omega) (by omega)

theorem clear_words_bytes :
    ∀ count st i, (clear_words st i count).buffer_bytes = st.buffer_bytes := by
  intro count
  induction count with
  | zero => intro st i; rfl
  | succ c ih => intro st i; rw [clear_words, ih]; rfl

theorem clear_words_power :
    ∀ count st i, (clear_words st i count).power = st.power := by
  intro count
  induction count with
  | zero => intro st i; rfl
  | succ c ih => intro st i; rw [clear_words, ih]; rfl

theorem clear_words_lists :
    ∀ count st i, (clear_words st i count).lists = st.lists := by
  intro count
  induction count with
  | zero => intro st i; rfl
  | succ c ih => intro st i; rw [clear_words, ih]; rfl

/-! ### Frame lemmas for the free-list operations -/

theorem remove_chunk_list_rd (st : State) (h c q : Nat)
    (hq1 : q ≠ rd st (h + 2) + 1) (hq2 : q ≠ rd st (h + 1) + 2) :
    rd (remove_chunk_list st h c) q = rd st q := by
  rw [remove_chunk_list]
  rcases hp : get_prev st h with _ | pv <;> rcases hn : get_next st h with _ | nx
  · rfl
  · have hnx : nx = rd st (h + 1) := by
      rw [get_next, get_chunk] at hn
      split_ifs at hn <;> simp_all
    rw [rd_wr_ne _ _ _ _ (by omega), rd_wrList]
  · have hpv : pv = rd st (h + 2) := by
      rw [get_prev, get_chunk] at hp
      split_ifs at hp <;> simp_all
    rw [rd_wr_ne _ _ _ _ (by omega)]
  · have hnx : nx = rd st (h + 1) := by
      rw [get_next, get_chunk] at hn
      split_ifs at hn <;> simp_all
    have hpv : pv = rd st (h + 2) := by
      rw [get_prev, get_chunk] at hp
      split_ifs at hp <;> simp_all
    rw [rd_wr_ne _ _ _ _ (by omega), rd_wr_ne _ _ _ _ (by omega)]

theorem remove_chunk_list_bytes (st : State) (h c : Nat) :
    (remove_chunk_list st h c).buffer_bytes = st.buffer_bytes := by
  rw [remove_chunk_list]
  rcases get_prev st h with _ | pv <;> rcases get_next st h with _ | nx
  all_goals rfl

theorem remove_chunk_list_power (st : State) (h c : Nat) :
    (remove_chunk_list st h c).power = st.power := by
  rw [remove_chunk_list]
  rcases get_prev st h with _ | pv <;> rcases get_next st h with _ | nx
  all_goals rfl

theorem remove_chunk_list_lists (st : State) (h c c' : Nat) (hc : c' ≠ c) :
    (remove_chunk_list st h c).lists c' = st.lists c' := by
  rw [remove_chunk_list]
  rcases get_prev st h with _ | pv <;> rcases get_next st h with _ | nx
  · rw [wrList_lists, if_neg hc]
  · rw [wr_lists, wrList_lists, if_neg hc]
  · rfl
  · rfl

/-! ### Parse geometry -/

theorem chunksFrom_mem_bounds (st : State) (N : Nat) :
    ∀ fuel pos l, chunksFrom st N pos fuel = some l →
      ∀ p ∈ l, pos ≤ p ∧ p + chunk_space st p ≤ N := by
  intro fuel
  induction fuel with
  | zero => intro pos l hl; simp [chunksFrom] at hl
  | succ f ih =>
    intro pos l hl
    rw [chunksFrom] at hl
    by_cases h1 : pos = N
    · rw [if_pos h1] at hl
      injection hl with hl
      subst hl
      intro p hp
      simp at hp
    · rw [if_neg h1] at hl
      by_cases h2 : N < pos
      · rw [if_pos h2] at hl
        exact absurd hl (by simp)
      · rw [if_neg h2] at hl
        cases hrest : chunksFrom st N (pos + chunk_space st pos) f with
        | none =>
          rw [hrest] at hl
          exact absurd hl (by simp)
        | some l' =>
          rw [hrest] at hl
          simp only [Option.map_some', Option.some.injEq] at hl
          subst hl
          intro p hp
          rcases List.mem_cons.mp hp with hp | hp
          · subst hp
            refine ⟨le_refl p, ?_⟩
            rcases l' with _ | ⟨q, l''⟩
            · -- empty tail: the recursive parse landed exactly on N
              rcases f with _ | f'
              · exact absurd hrest (by simp [chunksFrom])
              · rw [chunksFrom] at hrest
                by_cases hA : p + chunk_space st p = N
                · omega
                · rw [if_neg hA] at hrest
                  by_cases hB : N < p + chunk_space st p
                  · rw [if_pos hB] at hrest
                    exact absurd hrest (by simp)
                  · rw [if_neg hB] at hrest
                    cases hr2 : chunksFrom st N
                        (p + chunk_space st p +
                          chunk_space st (p + chunk_space st p)) f' with
                    | none =>
                      rw [hr2] at hrest
                      exact absurd hrest (by simp)
                    | some l3 =>
                      rw [hr2] at hrest
                      simp at hrest
            · have := ih (p + chunk_space st p) (q :: l'') hrest q (by simp)
              omega
          · have := ih (pos + chunk_space st pos) l' hrest p hp
            omega

theorem chunksFrom_pairwise (st : State) (N : Nat) :
    ∀ fuel pos l, chunksFrom st N pos fuel = some l →
      l.Pairwise fun p q => p + chunk_space st p ≤ q := by
  intro fuel
  induction fuel with
  | zero => intro pos l hl; simp [chunksFrom] at hl
  | succ f ih =>
    intro pos l hl
    rw [chunksFrom] at hl
    by_cases h1 : pos = N
    · rw [if_pos h1] at hl
      injection hl with hl
      subst hl
      simp
    · rw [if_neg h1] at hl
      by_cases h2 : N < pos
      · rw [if_pos h2] at hl
        exact absurd hl (by simp)
      · rw [if_neg h2] at hl
        cases hrest : chunksFrom st N (pos + chunk_space st pos) f with
        | none =>
          rw [hrest] at hl
          exact absurd hl (by simp)
        | some l' =>
          rw [hrest] at hl
          simp only [Option.map_some', Option.some.injEq] at hl
          subst hl
          refine List.pairwise_cons.mpr ⟨?_, ih _ _ hrest⟩
          intro q hq
          have := chunksFrom_mem_bounds st N f (pos + chunk_space st pos) l' hrest q hq
          omega

theorem pairwise_mem_or {R : Nat → Nat → Prop} :
    ∀ l : List Nat, l.Pairwise R → ∀ p ∈ l, ∀ q ∈ l, p ≠ q → R p q ∨ R q p := by
  intro l
  induction l with
  | nil => intro _ p hp; simp at hp
  | cons a t ih =>
    intro hl p hp q hq hne
    rcases List.pairwise_cons.mp hl with ⟨ha, ht⟩
    rcases List.mem_cons.mp hp with hp | hp
    · rcases List.mem_cons.mp hq with hq | hq
      · rw [hp, hq] at hne
        exact absurd rfl hne
      · rw [hp]
        exact Or.inl (ha q hq)
    · rcases List.mem_cons.mp hq with hq | hq
      · rw [hq]
        exact Or.inr (ha p hp)
      · exact ih ht p hp q hq hne

theorem chunks_mem_bounds (st : State) (p : Nat)
    (hch : (chunks st).isSome) (hp : p ∈ the_chunks st) :
    p + chunk_space st p ≤ st.buffer_bytes / 4 := by
  obtain ⟨l, hl⟩ := Option.isSome_iff_exists.mp hch
  rw [chunks] at hl
  have hthe : the_chunks st = l := by rw [the_chunks, chunks, hl]; rfl
  rw [hthe] at hp
  exact (chunksFrom_mem_bounds st _ _ _ _ hl p hp).2

theorem chunks_disjoint (st : State) (p q : Nat)
    (hch : (chunks st).isSome) (hp : p ∈ the_chunks st)
    (hq : q ∈ the_chunks st) (hne : p ≠ q) :
    p + chunk_space st p ≤ q ∨ q + chunk_space st q ≤ p := by
  obtain ⟨l, hl⟩ := Option.isSome_iff_exists.mp hch
  rw [chunks] at hl
  have hthe : the_chunks st = l := by rw [the_chunks, chunks, hl]; rfl
  rw [hthe] at hp hq
  exact pairwise_mem_or l (chunksFrom_pairwise st _ _ _ _ hl) p hp q hq hne

/-! ### Free-list chain structure -/

theorem walkList_next_chain (st : State) :
    ∀ fuel head L, walkList st head fuel = some L → next_chain st L := by
  intro fuel
  induction fuel with
  | zero => intro head L hw; simp [walkList] at hw
  | succ f ih =>
    intro head L hw
    rw [walkList] at hw
    by_cases hnil : head = NIL
    · rw [if_pos hnil] at hw
      injection hw with hw
      subst hw
      trivial
    · rw [if_neg hnil] at hw
      cases hw' : walkList st (rd st (head + 1)) f with
      | none => rw [hw'] at hw; exact absurd hw (by simp)
      | some L' =>
        rw [hw'] at hw
        simp only [Option.map_some', Option.some.injEq] at hw
        subst hw
        have ht := ih _ _ hw'
        cases L' with
        | nil =>
          have : rd st (head + 1) = NIL := by
            rcases f with _ | f'
            · simp [walkList] at hw'
            · rw [walkList] at hw'
              by_cases hz : rd st (head + 1) = NIL
              · exact hz
              · rw [if_neg hz] at hw'
                cases hz2 : walkList st (rd st (rd st (head + 1) + 1)) f' with
                | none => rw [hz2] at hw'; exact absurd hw' (by simp)
                | some l3 => rw [hz2] at hw'; simp at hw'
          exact this
        | cons a t =>
          have : rd st (head + 1) = a := by
            rcases f with _ | f'
            · simp [walkList] at hw'
            · rw [walkList] at hw'
              by_cases hz : rd st (head + 1) = NIL
              · rw [if_pos hz] at hw'
                simp at hw'
              · rw [if_neg hz] at hw'
                cases hz2 : walkList st (rd st (rd st (head + 1) + 1)) f' with
                | none => rw [hz2] at hw'; exact absurd hw' (by simp)
                | some l3 =>
                  rw [hz2] at hw'
                  simp only [Option.map_some', Option.some.injEq] at hw'
                  exact (List.cons_eq_cons.mp hw').1
          exact ⟨this, ht⟩

theorem walkList_head_shape (st : State) (fuel head : Nat) (L : List Nat)
    (hw : walkList st head fuel = some L) :
    (head = NIL ∧ L = []) ∨ ∃ t, L = head :: t := by
  rcases fuel with _ | f
  · simp [walkList] at hw
  · rw [walkList] at hw
    by_cases hnil : head = NIL
    · rw [if_pos hnil] at hw
      injection hw with hw
      exact Or.inl ⟨hnil, hw.symm⟩
    · rw [if_neg hnil] at hw
      cases hw' : walkList st (rd st (head + 1)) f with
      | none => rw [hw'] at hw; exact absurd hw (by simp)
      | some L' =>
        rw [hw'] at hw
        simp only [Option.map_some', Option.some.injEq] at hw
        exact Or.inr ⟨L', hw.symm⟩

theorem next_chain_mem (st : State) :
    ∀ L, next_chain st L → ∀ m ∈ L, rd st (m + 1) = NIL ∨ rd st (m + 1) ∈ L := by
  intro L
  induction L with
  | nil => intro _ m hm; simp at hm
  | cons a t ih =>
    intro hc m hm
    cases t with
    | nil =>
      simp at hm
      subst hm
      exact Or.inl hc
    | cons b t' =>
      rcases hc with ⟨ha, ht⟩
      rcases List.mem_cons.mp hm with hm | hm
      · subst hm
        rw [ha]
        exact Or.inr (by simp)
      · rcases ih ht m hm with hL | hL
        · exact Or.inl hL
        · exact Or.inr (List.mem_cons_of_mem a hL)

theorem prev_chain_mem (st : State) :
    ∀ L pv0, prev_chain st pv0 L = true → ∀ m ∈ L,
      rd st (m + 2) = pv0 ∨ rd st (m + 2) ∈ L := by
  intro L
  induction L with
  | nil => intro _ _ m hm; simp at hm
  | cons a t ih =>
    intro pv0 hc m hm
    rw [prev_chain, Bool.and_eq_true] at hc
    rcases hc with ⟨ha, ht⟩
    rcases List.mem_cons.mp hm with hm | hm
    · subst hm
      exact Or.inl (by simpa using ha)
    · rcases ih a ht m hm with hL | hL
      · exact Or.inr (by rw [hL]; simp)
      · exact Or.inr (List.mem_cons_of_mem a hL)

theorem chain_next_ne_self (st : State) :
    ∀ L, next_chain st L → L.Nodup → (∀ m ∈ L, m ≠ NIL) →
      ∀ m ∈ L, rd st (m + 1) ≠ m := by
  intro L
  induction L with
  | nil => intro _ _ _ m hm; simp at hm
  | cons a t ih =>
    intro hc hnd hnn m hm
    cases t with
    | nil =>
      simp at hm
      subst hm
      have hNIL : rd st (m + 1) = NIL := hc
      rw [hNIL]
      exact fun hcon => hnn m (by simp) hcon.symm
    | cons b t' =>
      rcases List.nodup_cons.mp hnd with ⟨hna, hndt⟩
      have hab : rd st (a + 1) = b := hc.1
      have htc : next_chain st (b :: t') := hc.2
      rcases List.mem_cons.mp hm with hm' | hm'
      · subst hm'
        rw [hab]
        intro hba
        exact hna (hba ▸ List.mem_cons_self b t')
      · exact ih htc hndt (fun x hx => hnn x (List.mem_cons_of_mem a hx)) m hm'

theorem chain_pred_unique (st : State) :
    ∀ L pv0, next_chain st L → prev_chain st pv0 L = true → L.Nodup →
      (∀ m ∈ L, m ≠ NIL) →
      ∀ v ∈ L, ∀ g ∈ L, rd st (v + 1) = g → rd st (g + 2) = v := by
  intro L
  induction L with
  | nil => intro _ _ _ _ _ v hv; simp at hv
  | cons a t ih =>
    intro pv0 hnc hpc hnd hnn v hv g hg hvg
    rw [prev_chain, Bool.and_eq_true] at hpc
    rcases hpc with ⟨hpa, hpt⟩
    rcases List.nodup_cons.mp hnd with ⟨hna, hndt⟩
    rcases List.mem_cons.mp hv with hv' | hv'
    · -- v is the head
      subst hv'
      cases t with
      | nil =>
        -- sole element: next is NIL, but g ∈ [v] means g = v ≠ NIL
        have hNIL : rd st (v + 1) = NIL := hnc
        rw [hNIL] at hvg
        simp at hg
        exact absurd (hvg.trans hg).symm (hnn v (by simp))
      | cons b t' =>
        have hab : rd st (v + 1) = b := hnc.1
        rw [hab] at hvg
        subst hvg
        -- g is the second element; its prev link is the head
        rw [prev_chain, Bool.and_eq_true] at hpt
        simpa using hpt.1
    · -- v is in the tail
      cases t with
      | nil => simp at hv'
      | cons b t' =>
        have htc : next_chain st (b :: t') := hnc.2
        have hgt : g ∈ b :: t' := by
          rcases next_chain_mem st (b :: t') htc v hv' with h2 | h2
          · exact absurd (hvg.symm.trans h2) (hnn g hg)
          · rw [hvg] at h2
            exact h2
        exact ih a htc hpt hndt (fun m hm => hnn m (List.mem_cons_of_mem a hm))
          v hv' g hgt hvg

theorem get_prev_none_iff (st : State) (h : Nat) :
    get_prev st h = none ↔ rd st (h + 2) = NIL := by
  rw [get_prev, get_chunk]
  constructor
  · intro hp
    by_cases h1 : rd st (h + 2) = NIL
    · exact h1
    · rw [if_neg h1, if_neg h1] at hp
      simp at hp
  · intro hp
    rw [if_pos hp]

theorem get_prev_some_iff (st : State) (h pv : Nat) :
    get_prev st h = some pv ↔ rd st (h + 2) = pv ∧ pv ≠ NIL := by
  rw [get_prev, get_chunk]
  constructor
  · intro hp
    by_cases h1 : rd st (h + 2) = NIL
    · rw [if_pos h1] at hp
      simp at hp
    · rw [if_neg h1, if_neg h1] at hp
      injection hp with hp
      exact ⟨hp, hp ▸ h1⟩
  · intro ⟨hp, hnn⟩
    rw [hp, if_neg hnn, if_neg hnn]

theorem get_next_none_iff (st : State) (h : Nat) :
    get_next st h = none ↔ rd st (h + 1) = NIL := by
  rw [get_next, get_chunk]
  constructor
  · intro hp
    by_cases h1 : rd st (h + 1) = NIL
    · exact h1
    · rw [if_neg h1, if_neg h1] at hp
      simp at hp
  · intro hp
    rw [if_pos hp]

theorem get_next_some_iff (st : State) (h nx : Nat) :
    get_next st h = some nx ↔ rd st (h + 1) = nx ∧ nx ≠ NIL := by
  rw [get_next, get_chunk]
  constructor
  · intro hp
    by_cases h1 : rd st (h + 1) = NIL
    · rw [if_pos h1] at hp
      simp at hp
    · rw [if_neg h1, if_neg h1] at hp
      injection hp with hp
      exact ⟨hp, hp ▸ h1⟩
  · intro ⟨hp, hnn⟩
    rw [hp, if_neg hnn, if_neg hnn]

theorem remove_chunk_list_lists_self (st : State) (h c : Nat) :
    (remove_chunk_list st h c).lists c =
      if rd st (h + 2) = NIL then rd st (h + 1) else st.lists c := by
  rw [remove_chunk_list]
  rcases hp : get_prev st h with _ | pv <;> rcases hn : get_next st h with _ | nx
  · rw [wrList_lists, if_pos rfl, if_pos ((get_prev_none_iff st h).mp hp),
      (get_next_none_iff st h).mp hn]
  · rw [wr_lists, wrList_lists, if_pos rfl,
      if_pos ((get_prev_none_iff st h).mp hp)]
  · rcases (get_prev_some_iff st h pv).mp hp with ⟨hpv, hpvn⟩
    rw [wr_lists, if_neg (by rw [hpv]; exact hpvn)]
  · rcases (get_prev_some_iff st h pv).mp hp with ⟨hpv, hpvn⟩
    rw [wr_lists, wr_lists, if_neg (by rw [hpv]; exact hpvn)]

theorem remove_chunk_list_rd_pv (st : State) (h c : Nat)
    (pv : Nat) (hpv : get_prev st h = some pv)
    (hne : rd st (h + 1) ≠ NIL → pv + 1 ≠ rd st (h + 1) + 2) :
    rd (remove_chunk_list st h c) (pv + 1) = rd st (h + 1) := by
  rw [remove_chunk_list, hpv]
  rcases hn : get_next st h with _ | nx
  · rw [rd_wr_self, (get_next_none_iff st h).mp hn]
  · rcases (get_next_some_iff st h nx).mp hn with ⟨hnx, hnxn⟩
    have h1 : rd st (h + 1) ≠ NIL := by rw [hnx]; exact hnxn
    have hne' : pv + 1 ≠ nx + 2 := by
      have := hne h1
      omega
    rw [rd_wr_ne _ _ _ _ hne', rd_wr_self]

theorem remove_chunk_list_rd_nx (st : State) (h c : Nat)
    (nx : Nat) (hnx : get_next st h = some nx)
    (hne : rd st (h + 2) ≠ NIL → h + 2 ≠ rd st (h + 2) + 1) :
    rd (remove_chunk_list st h c) (nx + 2) =
      if rd st (h + 2) = NIL then NIL else rd st (h + 2) := by
  rw [remove_chunk_list, hnx]
  rcases hp : get_prev st h with _ | pv
  · rw [if_pos ((get_prev_none_iff st h).mp hp), rd_wr_self]
  · rcases (get_prev_some_iff st h pv).mp hp with ⟨hpv, hpvn⟩
    have h2 : rd st (h + 2) ≠ NIL := by rw [hpv]; exact hpvn
    have hne' : h + 2 ≠ pv + 1 := by
      have := hne h2
      omega
    rw [if_neg h2, rd_wr_self, rd_wr_ne _ _ _ _ hne']

theorem add_chunk_go_bytes (st : State) (h c : Nat) :
    ∀ fuel prev curr,
      (add_chunk_go st h c prev curr fuel).buffer_bytes = st.buffer_bytes := by
  intro fuel
  induction fuel with
  | zero => intro prev curr; rfl
  | succ f ih =>
    intro prev curr
    rw [add_chunk_go.eq_def]
    rcases curr with _ | cu
    · rcases prev with _ | pv
      all_goals rfl
    · simp only
      split_ifs
      · rcases prev with _ | pv
        all_goals rfl
      · exact ih (some cu) (get_next st cu)

theorem add_chunk_go_power (st : State) (h c : Nat) :
    ∀ fuel prev curr,
      (add_chunk_go st h c prev curr fuel).power = st.power := by
  intro fuel
  induction fuel with
  | zero => intro prev curr; rfl
  | succ f ih =>
    intro prev curr
    rw [add_chunk_go.eq_def]
    rcases curr with _ | cu
    · rcases prev with _ | pv
      all_goals rfl
    · simp only
      split_ifs
      · rcases prev with _ | pv
        all_goals rfl
      · exact ih (some cu) (get_next st cu)

theorem add_chunk_go_rd (st : State) (h c : Nat) (P : Nat → Prop)
    (hP : ∀ v, P v → rd st (v + 1) = NIL ∨ P (rd st (v + 1)))
    (q : Nat)
    (hqP : ∀ v, P v → q ≠ v + 1 ∧ q ≠ v + 2)
    (hqh1 : q ≠ h + 1) (hqh2 : q ≠ h + 2) :
    ∀ fuel prev curr,
      (prev = none ∨ ∃ pv, prev = some pv ∧ P pv) →
      (curr = none ∨ ∃ cv, curr = some cv ∧ P cv) →
      rd (add_chunk_go st h c prev curr fuel) q = rd st q := by
  intro fuel
  induction fuel with
  | zero => intro prev curr _ _; rfl
  | succ f ih =>
    intro prev curr hprev hcurr
    rw [add_chunk_go.eq_def]
    rcases curr with _ | cu
    · rcases prev with _ | pv
      · rfl
      · rcases hprev with hprev | ⟨pv', hpv', hP'⟩
        · exact absurd hprev (by simp)
        · injection hpv' with hpv'
          subst hpv'
          rw [rd_wr_ne _ _ _ _ hqh1, rd_wr_ne _ _ _ _ hqh2,
            rd_wr_ne _ _ _ _ (hqP pv hP').1]
    · rcases hcurr with hcurr | ⟨cv, hcv, hPc⟩
      · exact absurd hcurr (by simp)
      · injection hcv with hcv
        subst hcv
        simp only
        split_ifs
        · rcases prev with _ | pv
          · rw [rd_wr_ne _ _ _ _ hqh2, rd_wr_ne _ _ _ _ hqh1,
              rd_wr_ne _ _ _ _ (hqP cu hPc).2, rd_wrList]
          · rcases hprev with hprev | ⟨pv', hpv', hP'⟩
            · exact absurd hprev (by simp)
            · injection hpv' with hpv'
              subst hpv'
              rw [rd_wr_ne _ _ _ _ hqh2, rd_wr_ne _ _ _ _ hqh1,
                rd_wr_ne _ _ _ _ (hqP cu hPc).2,
                rd_wr_ne _ _ _ _ (hqP pv hP').1]
        · refine ih (some cu) (get_next st cu) (Or.inr ⟨cu, rfl, hPc⟩) ?_
          rcases hn : get_next st cu with _ | nx
          · exact Or.inl rfl
          · rcases (get_next_some_iff st cu nx).mp hn with ⟨hnx, hnxn⟩
            rcases hP cu hPc with hL | hL
            · rw [hL] at hnx
              exact absurd hnx.symm hnxn
            · exact Or.inr ⟨nx, rfl, hnx ▸ hL⟩

theorem add_chunk_list_rd (st : State) (h c : Nat) (fuel : Nat)
    (P : Nat → Prop)
    (hP : ∀ v, P v → rd st (v + 1) = NIL ∨ P (rd st (v + 1)))
    (hhead : st.lists c = NIL ∨ P (st.lists c))
    (q : Nat)
    (hqP : ∀ v, P v → q ≠ v + 1 ∧ q ≠ v + 2)
    (hqh1 : q ≠ h + 1) (hqh2 : q ≠ h + 2) :
    rd (add_chunk_list st h c fuel) q = rd st q := by
  rw [add_chunk_list]
  by_cases hnil : st.lists c = NIL
  · rw [if_pos hnil, rd_wr_ne _ _ _ _ hqh2, rd_wr_ne _ _ _ _ hqh1, rd_wrList]
  · rw [if_neg hnil]
    refine add_chunk_go_rd st h c P hP q hqP hqh1 hqh2 fuel none
      (get_chunk (st.lists c)) (Or.inl rfl) ?_
    rcases hhead with hhead | hhead
    · exact absurd hhead hnil
    · exact Or.inr ⟨st.lists c, by rw [get_chunk, if_neg hnil], hhead⟩

theorem add_chunk_list_bytes (st : State) (h c fuel : Nat) :
    (add_chunk_list st h c fuel).buffer_bytes = st.buffer_bytes := by
  rw [add_chunk_list]
  split_ifs
  · rfl
  · exact add_chunk_go_bytes st h c fuel none (get_chunk (st.lists c))

theorem add_chunk_list_power (st : State) (h c fuel : Nat) :
    (add_chunk_list st h c fuel).power = st.power := by
  rw [add_chunk_list]
  split_ifs
  · rfl
  · exact add_chunk_go_power st h c fuel none (get_chunk (st.lists c))

/-! ### Well-formedness projections and consequences -/

theorem wf_walk_eq {st : State} (hwf : wf_base st) (c : Nat) (hc : c < 8) :
    walkList st (st.lists c) (FUEL st) = some (class_list st c) := by
  obtain ⟨-, -, -, -, -, -, -, -, h9, -⟩ := hwf
  obtain ⟨L, hL⟩ := Option.isSome_iff_exists.mp (h9 c hc)
  rw [class_list, hL]
  rfl

theorem wf_lists_walkable {st : State} (hwf : wf_base st) : lists_walkable st := by
  obtain ⟨-, -, -, -, -, -, -, -, h9, -⟩ := hwf
  exact h9

theorem wf_lists_facts {st : State} (hwf : wf_base st) (c : Nat) (hc : c < 8) :
    (class_list st c).Nodup ∧ prev_chain st NIL (class_list st c) = true ∧
      ∀ m ∈ class_list st c, m ∈ the_chunks st ∧ 0 < toInt32 (rd st m) ∧
        alloc_class (toInt32 (rd st m)) st.power = c := by
  obtain ⟨-, -, -, -, -, -, -, -, -, h10⟩ := hwf
  exact h10 c hc

theorem wf_parse {st : State} (hwf : wf_base st) : (chunks st).isSome := by
  obtain ⟨-, -, -, -, -, -, h7, -⟩ := hwf
  exact h7

theorem wf_chunk_ok {st : State} (hwf : wf_base st) :
    ∀ h ∈ the_chunks st, 2 ≤ int32abs (rd st h) ∧
      rd st (footer_off st h) = rd st h := by
  obtain ⟨-, -, -, -, -, -, -, h8, -⟩ := hwf
  exact h8

theorem wf_space_ge {st : State} (hwf : wf_base st) (m : Nat)
    (hm : m ∈ the_chunks st) : 4 ≤ chunk_space st m := by
  have := (wf_chunk_ok hwf m hm).1
  rw [chunk_space]
  omega

theorem wf_N_le {st : State} (hwf : wf_base st) : st.buffer_bytes / 4 ≤ 2 ^ 28 := by
  obtain ⟨-, -, h3, -⟩ := hwf
  omega

theorem wf_mem_lt_N {st : State} (hwf : wf_base st) (m : Nat)
    (hm : m ∈ the_chunks st) : m + chunk_space st m ≤ st.buffer_bytes / 4 :=
  chunks_mem_bounds st m (wf_parse hwf) hm

theorem wf_mem_ne_NIL {st : State} (hwf : wf_base st) (m : Nat)
    (hm : m ∈ the_chunks st) : m ≠ NIL := by
  have h1 := wf_mem_lt_N hwf m hm
  have h2 := wf_N_le hwf
  rw [NIL]
  omega

theorem chunk_cell_ne_start {st : State} (hwf : wf_base st) (p q : Nat)
    (hp : p ∈ the_chunks st) (hq : q ∈ the_chunks st) (a : Nat)
    (ha1 : q < a) (ha2 : a < q + chunk_space st q) : a ≠ p := by
  by_cases hpq : p = q
  · subst hpq
    omega
  · have hd := chunks_disjoint st p q (wf_parse hwf) hp hq hpq
    have hsp := wf_space_ge hwf p hp
    omega

theorem chunk_interior_avoid {st : State} (hwf : wf_base st) (p q : Nat)
    (hp : p ∈ the_chunks st) (hq : q ∈ the_chunks st) (hne : p ≠ q) (a : Nat)
    (ha1 : q < a) (ha2 : a < q + chunk_space st q) :
    a < p ∨ p + chunk_space st p ≤ a := by
  have hd := chunks_disjoint st p q (wf_parse hwf) hp hq hne
  omega

theorem chain_prev_ne_self (st : State) :
    ∀ L pv0, prev_chain st pv0 L = true → L.Nodup → pv0 ∉ L →
      ∀ m ∈ L, rd st (m + 2) ≠ m := by
  intro L
  induction L with
  | nil => intro _ _ _ _ m hm; simp at hm
  | cons a t ih =>
    intro pv0 hpc hnd hpv0 m hm
    rw [prev_chain, Bool.and_eq_true] at hpc
    rcases hpc with ⟨hpa, hpt⟩
    rcases List.nodup_cons.mp hnd with ⟨hna, hndt⟩
    rcases List.mem_cons.mp hm with hm' | hm'
    · subst hm'
      rw [show rd st (m + 2) = pv0 from by simpa using hpa]
      exact fun hcon => hpv0 (hcon ▸ List.mem_cons_self m t)
    · exact ih a hpt hndt hna m hm'

/-! ### Unlinking a chunk preserves the link structure of the others -/

theorem remove_closure {st : State} (hwf : wf_base st) (h c₀ : Nat) (hc₀ : c₀ < 8)
    (hh : h ∈ class_list st c₀) :
    ∀ v, other_members st h v →
      rd (remove_chunk_list st h c₀) (v + 1) = NIL ∨
        other_members st h (rd (remove_chunk_list st h c₀) (v + 1)) := by
  intro v hv
  obtain ⟨⟨c', hc', hvmem⟩, hvh⟩ := hv
  obtain ⟨hnd₀, hpc₀, hmem₀⟩ := wf_lists_facts hwf c₀ hc₀
  obtain ⟨hnd', hpc', hmem'⟩ := wf_lists_facts hwf c' hc'
  have hwalk₀ := wf_walk_eq hwf c₀ hc₀
  have hwalk' := wf_walk_eq hwf c' hc'
  have hnc₀ := walkList_next_chain st _ _ _ hwalk₀
  have hnc' := walkList_next_chain st _ _ _ hwalk'
  have hnn₀ : ∀ m ∈ class_list st c₀, m ≠ NIL :=
    fun m hm => wf_mem_ne_NIL hwf m (hmem₀ m hm).1
  have hnn' : ∀ m ∈ class_list st c', m ≠ NIL :=
    fun m hm => wf_mem_ne_NIL hwf m (hmem' m hm).1
  have hNILn₀ : NIL ∉ class_list st c₀ := fun hcon => hnn₀ NIL hcon rfl
  have hvcs : v ∈ the_chunks st := (hmem' v hvmem).1
  have hhcs : h ∈ the_chunks st := (hmem₀ h hh).1
  have hnx_form : rd st (h + 1) = NIL ∨
      (rd st (h + 1) ∈ class_list st c₀ ∧ rd st (h + 1) ≠ h) := by
    rcases next_chain_mem st _ hnc₀ h hh with hz | hz
    · exact Or.inl hz
    · exact Or.inr ⟨hz, chain_next_ne_self st _ hnc₀ hnd₀ hnn₀ h hh⟩
  by_cases hvpv : v = rd st (h + 2)
  · -- v is the predecessor of h in its list: its next becomes h's next
    have hgp : get_prev st h = some v :=
      (get_prev_some_iff st h v).mpr ⟨hvpv.symm, wf_mem_ne_NIL hwf v hvcs⟩
    have hside : rd st (h + 1) ≠ NIL → v + 1 ≠ rd st (h + 1) + 2 := by
      intro hnxnil
      rcases hnx_form with hz | ⟨hzmem, hzne⟩
      · exact absurd hz hnxnil
      · have hnxcs : rd st (h + 1) ∈ the_chunks st := (hmem₀ _ hzmem).1
        have hsp := wf_space_ge hwf _ hnxcs
        have := chunk_cell_ne_start hwf v (rd st (h + 1)) hvcs hnxcs
          (rd st (h + 1) + 1) (by omega) (by omega)
        omega
    rw [remove_chunk_list_rd_pv st h c₀ v hgp hside]
    rcases hnx_form with hz | ⟨hzmem, hzne⟩
    · exact Or.inl hz
    · exact Or.inr ⟨⟨c₀, hc₀, hzmem⟩, hzne⟩
  · -- v is untouched by the unlinking
    have hv1 : v + 1 ≠ rd st (h + 2) + 1 := fun hcon => hvpv (by omega)
    have hv2 : v + 1 ≠ rd st (h + 1) + 2 := by
      by_cases hnxnil : rd st (h + 1) = NIL
      · have hvN := wf_mem_lt_N hwf v hvcs
        have hN := wf_N_le hwf
        rw [hnxnil, NIL]
        omega
      · rcases hnx_form with hz | ⟨hzmem, hzne⟩
        · exact absurd hz hnxnil
        · have hnxcs : rd st (h + 1) ∈ the_chunks st := (hmem₀ _ hzmem).1
          have hsp := wf_space_ge hwf _ hnxcs
          have := chunk_cell_ne_start hwf v (rd st (h + 1)) hvcs hnxcs
            (rd st (h + 1) + 1) (by omega) (by omega)
          omega
    rw [remove_chunk_list_rd st h c₀ (v + 1) hv1 hv2]
    rcases next_chain_mem st _ hnc' v hvmem with hz | hz
    · exact Or.inl hz
    · by_cases hwh : rd st (v + 1) = h
      · exfalso
        have hhc' : h ∈ class_list st c' := hwh ▸ hz
        have hcls' := (hmem' h hhc').2.2
        have hcls₀ := (hmem₀ h hh).2.2
        have hceq : c' = c₀ := by rw [← hcls', ← hcls₀]
        subst hceq
        exact hvpv (chain_pred_unique st _ NIL hnc' hpc' hnd' hnn' v hvmem
          h hh hwh).symm
      · exact Or.inr ⟨⟨c', hc', hz⟩, hwh⟩

theorem remove_head_ok {st : State} (hwf : wf_base st) (h c₀ : Nat) (hc₀ : c₀ < 8)
    (hh : h ∈ class_list st c₀) :
    ∀ c', c' < 8 → (remove_chunk_list st h c₀).lists c' = NIL ∨
      other_members st h ((remove_chunk_list st h c₀).lists c') := by
  intro c' hc'
  obtain ⟨hnd₀, hpc₀, hmem₀⟩ := wf_lists_facts hwf c₀ hc₀
  have hwalk₀ := wf_walk_eq hwf c₀ hc₀
  have hnc₀ := walkList_next_chain st _ _ _ hwalk₀
  have hnn₀ : ∀ m ∈ class_list st c₀, m ≠ NIL :=
    fun m hm => wf_mem_ne_NIL hwf m (hmem₀ m hm).1
  by_cases hcc : c' = c₀
  · subst hcc
    rw [remove_chunk_list_lists_self]
    by_cases hpvnil : rd st (h + 2) = NIL
    · rw [if_pos hpvnil]
      rcases next_chain_mem st _ hnc₀ h hh with hz | hz
      · exact Or.inl hz
      · exact Or.inr ⟨⟨c', hc', hz⟩,
          chain_next_ne_self st _ hnc₀ hnd₀ hnn₀ h hh⟩
    · rw [if_neg hpvnil]
      rcases walkList_head_shape st (FUEL st) (st.lists c') _ hwalk₀ with
        ⟨hhd, hLnil⟩ | ⟨t, hLt⟩
      · rw [hLnil] at hh
        simp at hh
      · have hhd_mem : st.lists c' ∈ class_list st c' := by
          rw [hLt]
          simp
        refine Or.inr ⟨⟨c', hc', hhd_mem⟩, ?_⟩
        intro hcon
        rw [hcon] at hLt
        rw [hLt, prev_chain, Bool.and_eq_true] at hpc₀
        exact hpvnil (by simpa using hpc₀.1)
  · rw [remove_chunk_list_lists st h c₀ c' hcc]
    by_cases hln : st.lists c' = NIL
    · exact Or.inl hln
    · obtain ⟨hnd', hpc', hmem'⟩ := wf_lists_facts hwf c' hc'
      have hwalk' := wf_walk_eq hwf c' hc'
      rcases walkList_head_shape st (FUEL st) (st.lists c') _ hwalk' with
        ⟨hhd, hLnil⟩ | ⟨t, hLt⟩
      · exact absurd hhd hln
      · have hhd_mem : st.lists c' ∈ class_list st c' := by
          rw [hLt]
          simp
        refine Or.inr ⟨⟨c', hc', hhd_mem⟩, ?_⟩
        intro hcon
        have hhc' : h ∈ class_list st c' := hcon ▸ hhd_mem
        have hcls' := (hmem' h hhc').2.2
        have hcls₀ := (hmem₀ h hh).2.2
        exact hcc (by rw [← hcls', ← hcls₀])

theorem findSome?_exists {α β : Type} (f : α → Option β) :
    ∀ l : List α, ∀ b, l.findSome? f = some b → ∃ a ∈ l, f a = some b := by
  intro l
  induction l with
  | nil => intro b hb; simp [List.findSome?_nil] at hb
  | cons a t ih =>
    intro b hb
    rw [List.findSome?_cons] at hb
    cases hfa : f a with
    | none =>
      rw [hfa] at hb
      obtain ⟨x, hx, hfx⟩ := ih b hb
      exact ⟨x, List.mem_cons_of_mem a hx, hfx⟩
    | some b' =>
      rw [hfa] at hb
      exact ⟨a, List.mem_cons_self a t, hfa.trans hb⟩

theorem find_best_some {st : State} (hw : lists_walkable st) (b h : Nat)
    (hfb : find_best_chunk st b = some h) :
    ∃ c, c < 8 ∧ h ∈ class_list st c ∧
      toInt32 (round_up b) ≤ toInt32 (rd st h) := by
  rw [find_best_eq_search st b hw, search_spec] at hfb
  obtain ⟨c, hcmem, hc⟩ := findSome?_exists _ _ _ hfb
  have hc8 : c < 8 := by
    have := List.mem_of_mem_drop hcmem
    simpa using this
  refine ⟨c, hc8, List.mem_of_find?_eq_some hc, ?_⟩
  have := List.find?_some hc
  simpa using this

theorem round_up_small {n : Nat} (hn : n ≤ 2 ^ 31) :
    round_up n = (n + 3) / 4 := by
  rw [round_up]
  have h1 : n + 3 < 2 ^ 64 := by omega
  rw [Nat.mod_eq_of_lt h1, Nat.mod_eq_of_lt (by omega)]

theorem round_up_lt {n : Nat} (hn : n ≤ 2 ^ 31) : round_up n < 2 ^ 30 := by
  rw [round_up_small hn]
  omega

theorem should_break_iff (st : State) (h n : Nat) :
    should_break_chunk st h n = true ↔
      max (round_up n) 2 + 6 ≤ chunk_space st h := by
  rw [should_break_chunk]
  simp only [decide_eq_true_eq]
  have h32 : round_up (2 * (12 + 4)) = 8 := by decide
  rw [h32]
  omega

theorem toInt32_bounds {v : Nat} (hv : v < 2 ^ 32) :
    -(2 ^ 31) ≤ toInt32 v ∧ toInt32 v < 2 ^ 31 := by
  rw [toInt32]
  split_ifs with hc <;> omega

theorem toInt32_pos_eq {v : Nat} (hv : 0 < toInt32 v) :
    toInt32 v = (int32abs v : Int) := by
  rw [int32abs, Int.natAbs_of_nonneg (le_of_lt hv)]

theorem int32neg_abs {v : Nat} (hv : v < 2 ^ 32) :
    int32abs (ofInt32 (int32neg v)) = int32abs v := by
  obtain ⟨hb1, hb2⟩ := toInt32_bounds hv
  rw [int32neg]
  split_ifs with hc
  · rw [int32abs, toInt32_ofInt32 hb1 hb2]
    rfl
  · rw [int32abs, toInt32_ofInt32 (by omega) (by omega)]
    rw [int32abs, Int.natAbs_neg]

theorem get_adj_next_eq_some {st : State} {h a : Nat}
    (ha : get_adj_next st h = some a) : a = footer_off st h + 1 := by
  rw [get_adj_next] at ha
  split_ifs at ha with hc
  exact (Option.some.inj ha).symm

theorem allocate_some {st : State} {b : Nat} {cl : Bool} {h : Nat}
    (hs : (allocate st b cl).1 = some h) :
    find_best_chunk st b = some h ∧
      (allocate st b cl).2 =
        allocate_chunk (remove_free_chunk st h) h b cl := by
  by_cases h0 : b = 0
  · rw [allocate, if_pos h0] at hs
    simp at hs
  · cases hfb : find_best_chunk st b with
    | none =>
      rw [allocate, if_neg h0, hfb] at hs
      simp at hs
    | some h' =>
      have h1 : (allocate st b cl).1 = some h' := by
        rw [allocate, if_neg h0, hfb]
      have hh : h' = h := Option.some.inj (h1.symm.trans hs)
      subst hh
      refine ⟨rfl, ?_⟩
      rw [allocate, if_neg h0, hfb]

theorem allocate_chunk_zero (s0 : State) (h n : Nat) (P : Nat → Prop)
    (hbig : n ≤ 2 ^ 31)
    (habs : round_up n ≤ int32abs (rd s0 h))
    (hlt : rd s0 h < 2 ^ 32)
    (hPc : ∀ v, P v → rd s0 (v + 1) = NIL ∨ P (rd s0 (v + 1)))
    (hPh : ∀ c', c' < 8 → s0.lists c' = NIL ∨ P (s0.lists c'))
    (hPa : ∀ v, P v → ∀ a, h ≤ a → a < h + chunk_space s0 h →
      a ≠ v + 1 ∧ a ≠ v + 2) :
    ∀ i, i < round_up n → rd (allocate_chunk s0 h n true) (h + 1 + i) = 0 := by
  intro i hi
  have hruI : toInt32 (round_up n) = ((round_up n : Nat) : Int) :=
    toInt32_small (by have := round_up_lt hbig; omega)
  set ru := round_up n with hru
  set sN := max ru 2 with hsN
  have hsNlt : sN < 2 ^ 30 := by
    have := round_up_lt hbig
    omega
  have hsizeI : bump_size n = ((sN : Nat) : Int) := by
    rw [bump_size, ← hru, hruI, hsN, Nat.cast_max]
    norm_num
  have habs31 : int32abs (rd s0 h) ≤ 2 ^ 31 := by
    rw [int32abs]
    have := toInt32_bounds hlt
    omega
  -- it is enough that the split phase leaves a large, valid header at h
  suffices hX : ru ≤ int32abs (rd (break_step s0 h n) h) ∧
      rd (break_step s0 h n) h < 2 ^ 32 by
    obtain ⟨hXabs, hXlt⟩ := hX
    have hcs : clear_step (break_step s0 h n) h n true =
        clear_words (break_step s0 h n) (h + 1) ru := by
      rw [clear_step, if_pos rfl]
    rw [allocate_chunk, hcs]
    have hsth : rd (clear_words (break_step s0 h n) (h + 1) ru) h =
        rd (break_step s0 h n) h :=
      clear_words_rd_out h ru (break_step s0 h n) (h + 1) (by omega)
    have hzero : rd (clear_words (break_step s0 h n) (h + 1) ru) (h + 1 + i) = 0 :=
      clear_words_rd_in (h + 1 + i) ru (break_step s0 h n) (h + 1)
        (by omega) (by omega)
    rw [rd_set_size _ _ _ _ (by omega) ?hq2, hzero]
    case hq2 =>
      rw [hsth, int32neg_abs hXlt]
      omega
  by_cases hsb : should_break_chunk s0 h n = true
  · -- split branch
    have hsplit : sN + 6 ≤ chunk_space s0 h := by
      have := (should_break_iff s0 h n).mp hsb
      omega
    set stA := set_size s0 h (bump_size n) with hstA
    have hencabs : int32abs (ofInt32 (bump_size n)) = sN := by
      rw [hsizeI, int32abs_ofInt32 (by omega) (by omega)]
      exact Int.natAbs_ofNat sN
    have hAh : rd stA h = ofInt32 ((sN : Nat) : Int) := by
      rw [hstA, set_size_eq, rd_wr_ne _ _ _ _ (by rw [hencabs]; omega),
        rd_wr_self, hsizeI]
    have hAabs : int32abs (rd stA h) = sN := by
      rw [hAh, int32abs_ofInt32 (by omega) (by omega)]
      exact Int.natAbs_ofNat sN
    have hArd : ∀ q, q ≠ h → q ≠ h + 1 + sN → rd stA q = rd s0 q := by
      intro q hq1 hq2
      rw [hstA, set_size_eq, rd_wr_ne _ _ _ _ (by rw [hencabs]; omega),
        rd_wr_ne _ _ _ _ hq1]
    rw [break_step, if_pos hsb, ← hstA]
    cases hadj : get_adj_next stA h with
    | none =>
      rw [hAabs, hAh]
      exact ⟨by omega, ofInt32_lt _⟩
    | some nh =>
      have hnh : nh = h + sN + 2 := by
        have := get_adj_next_eq_some hadj
        rw [footer_off, hAabs] at this
        omega
      set Vint : Int := ((chunk_space s0 h - 4 : Nat) : Int) - bump_size n
        with hVint
      have hVnat : Vint = ((chunk_space s0 h - 4 - sN : Nat) : Int) := by
        rw [hVint, hsizeI]
        have h4 : 4 ≤ chunk_space s0 h := by omega
        push_cast
        omega
      have hVabs : int32abs (ofInt32 Vint) = chunk_space s0 h - 4 - sN := by
        have hsp31 : chunk_space s0 h ≤ 2 ^ 31 + 2 := by
          rw [chunk_space]
          omega
        rw [hVnat, int32abs_ofInt32 (by omega) (by push_cast; omega)]
        exact Int.natAbs_ofNat _
      set stB := set_size stA nh Vint with hstB
      have hBrd : ∀ q, q ≠ nh → q ≠ h + chunk_space s0 h - 1 →
          rd stB q = rd stA q := by
        intro q hq1 hq2
        rw [hstB, set_size_eq, rd_wr_ne, rd_wr_ne _ _ _ _ hq1]
        rw [hVabs, hnh]
        omega
      have hBh : rd stB h = rd stA h :=
        hBrd h (by omega) (by omega)
      -- the insertion of the remainder touches only other chunks' links
      have hXh : rd (add_free_chunk stB nh) h = rd stB h := by
        rw [add_free_chunk]
        refine add_chunk_list_rd stB nh _ _ P ?_ ?_ h ?_ (by omega) (by omega)
        · -- closure transported from s0 to stB
          intro v hv
          have k1 := (hPa v hv nh (by omega) (by omega)).1
          have k2 := (hPa v hv (h + chunk_space s0 h - 1)
            (by omega) (by omega)).1
          have k3 := (hPa v hv h (by omega) (by omega)).1
          have k4 := (hPa v hv (h + 1 + sN) (by omega) (by omega)).1
          have hB1 : rd stB (v + 1) = rd s0 (v + 1) := by
            rw [hBrd (v + 1) (by omega) (by omega),
              hArd (v + 1) (by omega) (by omega)]
          rw [hB1]
          exact hPc v hv
        · -- the walked head is a listed chunk or nil
          have hlists : stB.lists = s0.lists := by
            rw [hstB, set_size_lists, hstA, set_size_lists]
          rw [hlists]
          exact hPh _
            (by have := alloc_class_le (toInt32 (rd stB nh)) stB.power; omega)
        · -- the written link cells differ from the header position
          intro v hv
          exact hPa v hv h (by omega) (by omega)
      rw [hXh, hBh, hAabs, hAh]
      exact ⟨by omega, ofInt32_lt _⟩
  · -- no-split branch: the links are clobbered, the header is unchanged
    rw [break_step, if_neg hsb,
      rd_wr_ne _ _ _ _ (by omega), rd_wr_ne _ _ _ _ (by omega)]
    exact ⟨habs, hlt⟩

theorem wf_words {st : State} (hwf : wf_base st) :
    ∀ i < st.buffer_bytes / 4, rd st i < 2 ^ 32 := by
  obtain ⟨-, -, -, -, -, h6, -⟩ := hwf
  exact h6

/-- Claim C3 (amended): for every well-formed state and every `n > 0` with
`n ≤ 2^31` for which the zeroing allocate of `n` bytes succeeds, the
first `ceil(n/4)` payload words of the returned chunk are zero at
return. -/
theorem C3_zero_fill_amended (st : State) (n : Nat) (hwfF : wf st)
    (hn : 0 < n) (hbig : n ≤ 2 ^ 31) (h : Nat)
    (hs : (allocate st n true).1 = some h) :
    ∀ i, i < round_up n → rd (allocate st n true).2 (h + 1 + i) = 0 := by
  have hwf : wf_base st := hwfF.1
  obtain ⟨hfb, hst⟩ := allocate_some hs
  rw [hst]
  obtain ⟨c₁, hc₁8, hmem₁, hfit⟩ :=
    find_best_some (wf_lists_walkable hwf) n h hfb
  obtain ⟨hnd₁, hpc₁, hmemf₁⟩ := wf_lists_facts hwf c₁ hc₁8
  obtain ⟨hhcs, hhpos, hhcls⟩ := hmemf₁ h hmem₁
  have hrfc : remove_free_chunk st h = remove_chunk_list st h c₁ := by
    rw [remove_free_chunk, hhcls]
  rw [hrfc]
  set st1 := remove_chunk_list st h c₁ with hst1
  have hhsp := wf_space_ge hwf h hhcs
  have hhN := wf_mem_lt_N hwf h hhcs
  have hNle := wf_N_le hwf
  have hnn₁ : ∀ m ∈ class_list st c₁, m ≠ NIL :=
    fun m hm => wf_mem_ne_NIL hwf m (hmemf₁ m hm).1
  have hNILnot₁ : NIL ∉ class_list st c₁ := fun hcon => hnn₁ NIL hcon rfl
  have hnc₁ := walkList_next_chain st _ _ _ (wf_walk_eq hwf c₁ hc₁8)
  -- the unlinking does not touch the cells of the chunk at h
  have hframe1 : ∀ q, h ≤ q → q < h + chunk_space st h → rd st1 q = rd st q := by
    intro q hq1 hq2
    rw [hst1]
    apply remove_chunk_list_rd
    · by_cases hpvnil : rd st (h + 2) = NIL
      · rw [hpvnil, NIL]
        omega
      · rcases prev_chain_mem st _ NIL hpc₁ h hmem₁ with hz | hz
        · exact absurd hz hpvnil
        · have hpvcs := (hmemf₁ _ hz).1
          have hpvsp := wf_space_ge hwf _ hpvcs
          have hpvne : rd st (h + 2) ≠ h :=
            chain_prev_ne_self st _ NIL hpc₁ hnd₁ hNILnot₁ h hmem₁
          have havd := chunk_interior_avoid hwf h (rd st (h + 2)) hhcs hpvcs
            (fun hcc => hpvne hcc.symm) (rd st (h + 2) + 1)
            (by omega) (by omega)
          omega
    · by_cases hnxnil : rd st (h + 1) = NIL
      · rw [hnxnil, NIL]
        omega
      · rcases next_chain_mem st _ hnc₁ h hmem₁ with hz | hz
        · exact absurd hz hnxnil
        · have hnxcs := (hmemf₁ _ hz).1
          have hnxsp := wf_space_ge hwf _ hnxcs
          have hnxne : rd st (h + 1) ≠ h :=
            chain_next_ne_self st _ hnc₁ hnd₁ hnn₁ h hmem₁
          have havd := chunk_interior_avoid hwf h (rd st (h + 1)) hhcs hnxcs
            (fun hcc => hnxne hcc.symm) (rd st (h + 1) + 2)
            (by omega) (by omega)
          omega
  have hrd1h : rd st1 h = rd st h := hframe1 h (le_refl h) (by omega)
  have hsp1 : chunk_space st1 h = chunk_space st h := by
    rw [chunk_space, chunk_space, hrd1h]
  refine allocate_chunk_zero st1 h n (other_members st h) hbig ?_ ?_ ?_ ?_ ?_
  · -- the found chunk fits the rounded request
    rw [hrd1h]
    have hruI : toInt32 (round_up n) = ((round_up n : Nat) : Int) :=
      toInt32_small (by have := round_up_lt hbig; omega)
    rw [hruI, toInt32_pos_eq hhpos] at hfit
    exact_mod_cast hfit
  · rw [hrd1h]
    exact wf_words hwf h (by omega)
  · -- the link-closure of the remaining members survives the unlink
    intro v hv
    exact remove_closure hwf h c₁ hc₁8 hmem₁ v hv
  · intro c' hc'
    exact remove_head_ok hwf h c₁ hc₁8 hmem₁ c' hc'
  · -- link cells of other members lie outside the chunk at h
    intro v hv a ha1 ha2
    rw [hsp1] at ha2
    obtain ⟨⟨c', hc', hvmem⟩, hvh⟩ := hv
    obtain ⟨-, -, hmemf'⟩ := wf_lists_facts hwf c' hc'
    have hvcs := (hmemf' v hvmem).1
    have hvsp := wf_space_ge hwf v hvcs
    have hne : h ≠ v := fun hcc => hvh hcc.symm
    have havd1 := chunk_interior_avoid hwf h v hhcs hvcs hne (v + 1)
      (by omega) (by omega)
    have havd2 := chunk_interior_avoid hwf h v hhcs hvcs hne (v + 2)
      (by omega) (by omega)
    omega

theorem C3_zero_fill_amended_witness :
    wf stC3 ∧ (allocate stC3 20 true).1 = some 0 ∧
      rd (allocate stC3 20 true).2 (0 + 1 + 4) = 0 :=
  ⟨by decide, by decide,
    C3_zero_fill_amended stC3 20 (by decide) (by decide) (by decide) 0
      (by decide) 4 (by decide)⟩

/-! ### Coalesce machinery -/

theorem ofInt32_toInt32 {v : Nat} (hv : v < 2 ^ 32) :
    ofInt32 (toInt32 v) = v := by
  rw [toInt32, ofInt32]
  split_ifs with hc <;> omega

theorem footer_off_eq (st : State) (p : Nat) :
    footer_off st p = p + chunk_space st p - 1 := by
  rw [footer_off, chunk_space]
  omega

theorem chunksFrom_mono (st : State) (N : Nat) :
    ∀ f f' pos l, f ≤ f' → chunksFrom st N pos f = some l →
      chunksFrom st N pos f' = some l := by
  intro f
  induction f with
  | zero => intro f' pos l _ hl; simp [chunksFrom] at hl
  | succ g ih =>
    intro f' pos l hff hl
    rcases f' with _ | g'
    · omega
    · rw [chunksFrom] at hl ⊢
      by_cases h1 : pos = N
      · rw [if_pos h1] at hl ⊢
        exact hl
      · rw [if_neg h1] at hl ⊢
        by_cases h2 : N < pos
        · rw [if_pos h2] at hl
          exact absurd hl (by simp)
        · rw [if_neg h2] at hl ⊢
          cases hrest : chunksFrom st N (pos + chunk_space st pos) g with
          | none => rw [hrest] at hl; exact absurd hl (by simp)
          | some l2 =>
            rw [hrest] at hl
            rw [ih g' _ l2 (by omega) hrest]
            exact hl

theorem chunksFrom_nil (st : State) (N : Nat) (pos f : Nat)
    (hl : chunksFrom st N pos f = some []) : pos = N := by
  rcases f with _ | g
  · simp [chunksFrom] at hl
  · rw [chunksFrom] at hl
    by_cases h1 : pos = N
    · exact h1
    · rw [if_neg h1] at hl
      by_cases h2 : N < pos
      · rw [if_pos h2] at hl
        exact absurd hl (by simp)
      · rw [if_neg h2] at hl
        cases hrest : chunksFrom st N (pos + chunk_space st pos) g with
        | none => rw [hrest] at hl; exact absurd hl (by simp)
        | some l2 => rw [hrest] at hl; simp at hl

theorem chunksFrom_cons (st : State) (N : Nat) (pos f : Nat) (p : Nat)
    (l : List Nat) (hl : chunksFrom st N pos f = some (p :: l)) :
    p = pos ∧ chunksFrom st N (pos + chunk_space st pos) (f - 1) = some l := by
  rcases f with _ | g
  · simp [chunksFrom] at hl
  · rw [chunksFrom] at hl
    by_cases h1 : pos = N
    · rw [if_pos h1] at hl
      simp at hl
    · rw [if_neg h1] at hl
      by_cases h2 : N < pos
      · rw [if_pos h2] at hl
        exact absurd hl (by simp)
      · rw [if_neg h2] at hl
        cases hrest : chunksFrom st N (pos + chunk_space st pos) g with
        | none => rw [hrest] at hl; exact absurd hl (by simp)
        | some l2 =>
          rw [hrest] at hl
          simp only [Option.map_some', Option.some.injEq] at hl
          obtain ⟨hp, hl2⟩ := List.cons_eq_cons.mp hl.symm
          exact ⟨hp, by rw [Nat.succ_sub_one]; rw [← hl2] at hrest; exact hrest⟩

theorem link_cell_ne_tag {st : State} (hwf : wf_base st) {v w : Nat}
    (hv : v ∈ the_chunks st) (hw : w ∈ the_chunks st) (a : Nat)
    (ha : a = v + 1 ∨ a = v + 2) : a ≠ w ∧ a ≠ footer_off st w := by
  have hsv := wf_space_ge hwf v hv
  have hsw := wf_space_ge hwf w hw
  have hfw := footer_off_eq st w
  by_cases hvw : v = w
  · subst hvw
    omega
  · have hd := chunks_disjoint st v w (wf_parse hwf) hv hw hvw
    omega

theorem remove_chunk_list_values (s : State) (r c : Nat) (q : Nat) :
    rd (remove_chunk_list s r c) q = rd s q ∨
    rd (remove_chunk_list s r c) q = NIL ∨
    rd (remove_chunk_list s r c) q = rd s (r + 1) ∨
    rd (remove_chunk_list s r c) q = rd s (r + 2) := by
  rw [remove_chunk_list]
  rcases hp : get_prev s r with _ | pv <;> rcases hn : get_next s r with _ | nx
  · left
    rfl
  · by_cases hq : q = nx + 2
    · subst hq
      rw [rd_wr_self]
      right
      left
      rfl
    · rw [rd_wr_ne _ _ _ _ hq, rd_wrList]
      left
      rfl
  · by_cases hq : q = pv + 1
    · subst hq
      rw [rd_wr_self]
      right
      left
      rfl
    · rw [rd_wr_ne _ _ _ _ hq]
      left
      rfl
  · by_cases hq2 : q = nx + 2
    · subst hq2
      rw [rd_wr_self]
      by_cases hr2 : r + 2 = pv + 1
      · rw [hr2, rd_wr_self]
        right
        right
        left
        rfl
      · rw [rd_wr_ne _ _ _ _ hr2]
        right
        right
        right
        rfl
    · rw [rd_wr_ne _ _ _ _ hq2]
      by_cases hq1 : q = pv + 1
      · subst hq1
        rw [rd_wr_self]
        right
        right
        left
        rfl
      · rw [rd_wr_ne _ _ _ _ hq1]
        left
        rfl

theorem remove_chunk_list_heads (s : State) (r c : Nat) (c' : Nat) :
    (remove_chunk_list s r c).lists c' = s.lists c' ∨
    (remove_chunk_list s r c).lists c' = NIL ∨
    (remove_chunk_list s r c).lists c' = rd s (r + 1) := by
  rw [remove_chunk_list]
  rcases hp : get_prev s r with _ | pv <;> rcases hn : get_next s r with _ | nx
  · by_cases hc : c' = c
    · subst hc
      rw [wrList_lists, if_pos rfl]
      right
      left
      rfl
    · rw [wrList_lists, if_neg hc]
      left
      rfl
  · by_cases hc : c' = c
    · subst hc
      rw [wr_lists, wrList_lists, if_pos rfl]
      right
      right
      rfl
    · rw [wr_lists, wrList_lists, if_neg hc]
      left
      rfl
  · left
    rfl
  · left
    rfl

theorem remove_frame_tags {st : State} (hwf : wf_base st) (s : State)
    (r c : Nat)
    (hrp : rd s (r + 2) = NIL ∨ rd s (r + 2) ∈ the_chunks st)
    (hrn : rd s (r + 1) = NIL ∨ rd s (r + 1) ∈ the_chunks st)
    (q : Nat) (hqN : q < 2 ^ 32)
    (hqa : ∀ v ∈ the_chunks st, q ≠ v + 1 ∧ q ≠ v + 2) :
    rd (remove_chunk_list s r c) q = rd s q := by
  apply remove_chunk_list_rd
  · rcases hrp with hz | hz
    · rw [hz, NIL]
      omega
    · exact (hqa _ hz).1
  · rcases hrn with hz | hz
    · rw [hz, NIL]
      omega
    · exact (hqa _ hz).2

theorem remove_step_inv {st : State} (hwf : wf_base st) (h : Nat)
    (hhcs : h ∈ the_chunks st) (s : State) (pos A r : Nat)
    (hinv : coal_inv st h s pos A) (hr : free_starts st h r) :
    coal_inv st h (remove_free_chunk s r) pos A := by
  obtain ⟨hby, hpw, hposcs, hA4, hAN, hhdr, hposh, hposh2, hcell, hout, hW, hH, hE⟩ := hinv
  obtain ⟨hrcs, hrpos, hrh⟩ := hr
  obtain ⟨hW1, hW2⟩ := hW r ⟨hrcs, hrpos, hrh⟩
  have hrn : rd s (r + 1) = NIL ∨ rd s (r + 1) ∈ the_chunks st := by
    rcases hW1 with hz | hz
    · exact Or.inl hz
    · exact Or.inr hz.1
  have hrp : rd s (r + 2) = NIL ∨ rd s (r + 2) ∈ the_chunks st := by
    rcases hW2 with hz | hz
    · exact Or.inl hz
    · exact Or.inr hz.1
  have hNle := wf_N_le hwf
  have htag : ∀ q, q < 2 ^ 32 → (∀ v ∈ the_chunks st, q ≠ v + 1 ∧ q ≠ v + 2) →
      rd (remove_free_chunk s r) q = rd s q := by
    intro q hq1 hq2
    rw [remove_free_chunk]
    exact remove_frame_tags hwf s r _ hrp hrn q hq1 hq2
  have hstart_tag : ∀ w, w ∈ the_chunks st →
      ∀ v ∈ the_chunks st, w ≠ v + 1 ∧ w ≠ v + 2 := by
    intro w hw v hv
    have := link_cell_ne_tag hwf hv hw (v + 1) (Or.inl rfl)
    have := link_cell_ne_tag hwf hv hw (v + 2) (Or.inr rfl)
    constructor
    · exact fun hcon =>
        ((link_cell_ne_tag hwf hv hw (v + 1) (Or.inl rfl)).1) hcon.symm
    · exact fun hcon =>
        ((link_cell_ne_tag hwf hv hw (v + 2) (Or.inr rfl)).1) hcon.symm
  have hfoot_tag : ∀ w, w ∈ the_chunks st →
      ∀ v ∈ the_chunks st, footer_off st w ≠ v + 1 ∧ footer_off st w ≠ v + 2 := by
    intro w hw v hv
    constructor
    · exact fun hcon =>
        ((link_cell_ne_tag hwf hv hw (v + 1) (Or.inl rfl)).2) hcon.symm
    · exact fun hcon =>
        ((link_cell_ne_tag hwf hv hw (v + 2) (Or.inr rfl)).2) hcon.symm
  have hlt_start : ∀ w, w ∈ the_chunks st → w < 2 ^ 32 := by
    intro w hw
    have := wf_mem_lt_N hwf w hw
    have := wf_space_ge hwf w hw
    omega
  have hlt_foot : ∀ w, w ∈ the_chunks st → footer_off st w < 2 ^ 32 := by
    intro w hw
    have := wf_mem_lt_N hwf w hw
    have := footer_off_eq st w
    omega
  refine ⟨?_, ?_, hposcs, hA4, hAN, ?_, hposh, hposh2, ?_, ?_, ?_, ?_, hE⟩
  · rw [remove_free_chunk, remove_chunk_list_bytes]
    exact hby
  · rw [remove_free_chunk, remove_chunk_list_power]
    exact hpw
  · rw [htag pos (hlt_start pos hposcs) (hstart_tag pos hposcs)]
    exact hhdr
  · intro hph
    rw [htag h (hlt_start h hhcs) (hstart_tag h hhcs)]
    exact hcell hph
  · intro p hp hguard
    rw [htag p (hlt_start p hp) (hstart_tag p hp),
      htag (footer_off st p) (hlt_foot p hp) (hfoot_tag p hp)]
    exact hout p hp hguard
  · intro v hv
    constructor
    · rcases remove_chunk_list_values s r
        (alloc_class (toInt32 (rd s r)) s.power) (v + 1) with hc | hc | hc | hc
      all_goals rw [remove_free_chunk, hc]
      · exact (hW v hv).1
      · exact Or.inl rfl
      · exact hW1
      · exact hW2
    · rcases remove_chunk_list_values s r
        (alloc_class (toInt32 (rd s r)) s.power) (v + 2) with hc | hc | hc | hc
      all_goals rw [remove_free_chunk, hc]
      · exact (hW v hv).2
      · exact Or.inl rfl
      · exact hW1
      · exact hW2
  · intro c' hc'
    rcases remove_chunk_list_heads s r
      (alloc_class (toInt32 (rd s r)) s.power) c' with hc | hc | hc
    all_goals rw [remove_free_chunk, hc]
    · exact hH c' hc'
    · exact Or.inl rfl
    · exact hW1

theorem join_right_inv {st : State} (hwf : wf_base st) (h : Nat)
    (s : State) (A r : Nat) (hinv : coal_inv st h s h A)
    (hreq : r = h + A) (hrcs : r ∈ the_chunks st)
    (hrfree : 0 < toInt32 (rd st r)) :
    coal_inv st h (join s h r) h (A + chunk_space st r) := by
  obtain ⟨hby, hpw, hposcs, hA4, hAN, hhdr, hposh, hposh2, hcell, hout, hW, hH, hE⟩ :=
    hinv
  have hNle := wf_N_le hwf
  have hrsp := wf_space_ge hwf r hrcs
  have hrN := wf_mem_lt_N hwf r hrcs
  have hrval : rd s r = rd st r := (hout r hrcs (Or.inr (by omega))).1
  have hrint : toInt32 (rd st r) = ((chunk_space st r : Nat) : Int) - 2 := by
    rw [toInt32_pos_eq hrfree, chunk_space]
    push_cast
    ring
  have hsum : toInt32 (rd s h) + toInt32 (rd s r) + 2 =
      ((A + chunk_space st r : Nat) : Int) - 2 := by
    rw [hhdr, hrval, hrint, toInt32_ofInt32 (by omega) (by push_cast; omega)]
    push_cast
    ring
  have habs : int32abs (ofInt32 (((A + chunk_space st r : Nat) : Int) - 2)) =
      A + chunk_space st r - 2 := by
    rw [int32abs_ofInt32 (by push_cast; omega) (by push_cast; omega)]
    omega
  have haddr : h + 1 + (A + chunk_space st r - 2) =
      h + (A + chunk_space st r) - 1 := by omega
  have hjoin : join s h r =
      wr (wr s h (ofInt32 (((A + chunk_space st r : Nat) : Int) - 2)))
        (h + (A + chunk_space st r) - 1)
        (ofInt32 (((A + chunk_space st r : Nat) : Int) - 2)) := by
    rw [join, hsum, set_size_eq, habs, haddr]
  have hrdj : ∀ q, q ≠ h → q ≠ h + (A + chunk_space st r) - 1 →
      rd (join s h r) q = rd s q := by
    intro q hq1 hq2
    rw [hjoin, rd_wr_ne _ _ _ _ hq2, rd_wr_ne _ _ _ _ hq1]
  refine ⟨?_, ?_, hposcs, by omega, by omega, ?_, hposh, by omega, ?_, ?_, ?_, ?_,
    ⟨r, hrcs, by omega⟩⟩
  · rw [hjoin]
    exact hby
  · rw [hjoin]
    exact hpw
  · rw [hjoin, rd_wr_ne _ _ _ _ (by omega), rd_wr_self]
  · intro hph
    rw [hrdj h (by omega) (by omega)]
    exact hcell hph
  · intro p hp hguard
    have hpsp := wf_space_ge hwf p hp
    have hpN := wf_mem_lt_N hwf p hp
    have hpf := footer_off_eq st p
    have hold := hout p hp (by omega)
    rw [hrdj p (by omega) (by omega), hrdj (footer_off st p) (by omega) (by omega)]
    exact hold
  · intro v hv
    obtain ⟨hvcs, hvfree, hvh⟩ := hv
    have h1 := link_cell_ne_tag hwf hvcs hposcs (v + 1) (Or.inl rfl)
    have h2 := link_cell_ne_tag hwf hvcs hposcs (v + 2) (Or.inr rfl)
    have h3 := link_cell_ne_tag hwf hvcs hrcs (v + 1) (Or.inl rfl)
    have h4 := link_cell_ne_tag hwf hvcs hrcs (v + 2) (Or.inr rfl)
    have hfoot : h + (A + chunk_space st r) - 1 = footer_off st r := by
      rw [footer_off_eq]
      omega
    rw [hrdj (v + 1) h1.1 (by rw [hfoot]; exact h3.2),
      hrdj (v + 2) h2.1 (by rw [hfoot]; exact h4.2)]
    exact hW v ⟨hvcs, hvfree, hvh⟩
  · intro c' hc'
    have : (join s h r).lists = s.lists := by
      rw [hjoin, wr_lists, wr_lists]
    rw [this]
    exact hH c' hc'

theorem coalesce_right_inv {st : State} (hwf : wf_base st) (h : Nat)
    (hhcs : h ∈ the_chunks st) :
    ∀ rest : List Nat, ∀ fuel s A,
      coal_inv st h s h A →
      chunksFrom st (st.buffer_bytes / 4) (h + A) (st.buffer_bytes + 2) =
        some rest →
      (∀ p ∈ rest, p ∈ the_chunks st) →
      rest.length < fuel →
      coal_inv st h (coalesce_right s h fuel) h (A + freePrefixSum st rest) := by
  intro rest
  induction rest with
  | nil =>
    intro fuel s A hinv hparse hsub hlen
    obtain ⟨hby, hpw, hposcs, hA4, hAN, hhdr, hposh, hposh2, hcell, hout, hW, hH, hE⟩ :=
      hinv
    have hNle := wf_N_le hwf
    have hend : h + A = st.buffer_bytes / 4 := chunksFrom_nil st _ _ _ hparse
    rcases fuel with _ | f
    · omega
    · have hA2 : ((A : Int) - 2).natAbs = A - 2 := by omega
      have h4 : st.buffer_bytes = 4 * (st.buffer_bytes / 4) := by
        obtain ⟨hb4, -⟩ := hwf
        omega
      have hadj : get_adj_next s h = none := by
        rw [get_adj_next, footer_off, hhdr,
          int32abs_ofInt32 (by omega) (by push_cast; omega), hA2, hby,
          if_pos (by omega)]
      rw [coalesce_right]
      simp only [hadj]
      rw [freePrefixSum, Nat.add_zero]
      exact ⟨hby, hpw, hposcs, hA4, hAN, hhdr, hposh, hposh2, hcell, hout, hW, hH, hE⟩
  | cons r rest' ih =>
    intro fuel s A hinv hparse hsub hlen
    obtain ⟨hreq, hparse'⟩ := chunksFrom_cons st _ _ _ _ _ hparse
    subst hreq
    have hrcs : h + A ∈ the_chunks st := hsub (h + A) (List.mem_cons_self _ _)
    obtain ⟨hby, hpw, hposcs, hA4, hAN, hhdr, hposh, hposh2, hcell, hout, hW, hH, hE⟩ :=
      hinv
    have hinv' : coal_inv st h s h A :=
      ⟨hby, hpw, hposcs, hA4, hAN, hhdr, hposh, hposh2, hcell, hout, hW, hH, hE⟩
    have hNle := wf_N_le hwf
    have hrsp := wf_space_ge hwf (h + A) hrcs
    have hrN := wf_mem_lt_N hwf (h + A) hrcs
    rcases fuel with _ | f
    · omega
    · have hA2 : ((A : Int) - 2).natAbs = A - 2 := by omega
      have h4 : st.buffer_bytes = 4 * (st.buffer_bytes / 4) := by
        obtain ⟨hb4, -⟩ := hwf
        omega
      have hadj : get_adj_next s h = some (h + A) := by
        rw [get_adj_next, footer_off, hhdr,
          int32abs_ofInt32 (by omega) (by push_cast; omega), hA2, hby,
          if_neg (by omega)]
        congr 1
        omega
      have hrval : rd s (h + A) = rd st (h + A) :=
        (hout (h + A) hrcs (Or.inr (by omega))).1
      rw [coalesce_right]
      simp only [hadj]
      by_cases hfree : 0 < toInt32 (rd st (h + A))
      · rw [if_pos (by rw [hrval]; exact hfree)]
        have hinv1 := remove_step_inv hwf h hhcs s h A (h + A) hinv'
          ⟨hrcs, hfree, by omega⟩
        have hinv2 := join_right_inv hwf h (remove_free_chunk s (h + A))
          A (h + A) hinv1 rfl hrcs hfree
        have hparse2 : chunksFrom st (st.buffer_bytes / 4)
            (h + (A + chunk_space st (h + A))) (st.buffer_bytes + 2) =
            some rest' := by
          apply chunksFrom_mono st _ (st.buffer_bytes + 2 - 1) _ _ _ (by omega)
          have harr : h + (A + chunk_space st (h + A)) =
              h + A + chunk_space st (h + A) := by omega
          rw [harr]
          exact hparse'
        have hres := ih f (join (remove_free_chunk s (h + A)) h (h + A))
          (A + chunk_space st (h + A)) hinv2 hparse2
          (fun p hp => hsub p (List.mem_cons_of_mem _ hp))
          (by simp only [List.length_cons] at hlen; omega)
        rw [freePrefixSum, if_pos hfree]
        have harith : A + (chunk_space st (h + A) + freePrefixSum st rest') =
            A + chunk_space st (h + A) + freePrefixSum st rest' := by omega
        rw [harith]
        exact hres
      · rw [if_neg (by rw [hrval]; exact hfree)]
        rw [freePrefixSum, if_neg hfree, Nat.add_zero]
        exact ⟨hby, hpw, hposcs, hA4, hAN, hhdr, hposh, hposh2, hcell, hout, hW, hH, hE⟩

theorem C5_best_fit_search_witness :
    find_best_chunk stC2 10 = search_spec stC2 (toInt32 (round_up 10)) ∧
    (allocate stC2 10 false).1 = find_best_chunk stC2 10 := by
  have h := C5_best_fit_search stC2 10 (by decide)
  exact ⟨h.1, h.2 false (by norm_num)⟩

theorem chunksFrom_length (st : State) (N : Nat) :
    ∀ f pos l, chunksFrom st N pos f = some l → l.length < f := by
  intro f
  induction f with
  | zero => intro pos l hl; simp [chunksFrom] at hl
  | succ g ih =>
    intro pos l hl
    rw [chunksFrom] at hl
    by_cases h1 : pos = N
    · rw [if_pos h1] at hl
      injection hl with hl
      subst hl
      simp
    · rw [if_neg h1] at hl
      by_cases h2 : N < pos
      · rw [if_pos h2] at hl
        cases hl
      · rw [if_neg h2] at hl
        rcases Option.map_eq_some'.mp hl with ⟨t, ht, hlt⟩
        subst hlt
        have := ih _ _ ht
        simp only [List.length_cons]
        omega

theorem chunksFrom_split (st : State) (N : Nat) :
    ∀ l1 : List Nat, ∀ a f l2, chunksFrom st N a f = some (l1 ++ l2) →
      ∃ b, tiles st a l1 b ∧ chunksFrom st N b (f - l1.length) = some l2 := by
  intro l1
  induction l1 with
  | nil =>
    intro a f l2 hl
    exact ⟨a, rfl, hl⟩
  | cons p t ih =>
    intro a f l2 hl
    obtain ⟨hpa, hrec⟩ := chunksFrom_cons st N a f p (t ++ l2) hl
    obtain ⟨b, ht, hc⟩ := ih (a + chunk_space st a) (f - 1) l2 hrec
    refine ⟨b, ⟨hpa, ht⟩, ?_⟩
    have hlen : f - 1 - t.length = f - (p :: t).length := by
      simp only [List.length_cons]
      omega
    rw [← hlen]
    exact hc

theorem tiles_append (st : State) :
    ∀ l1 l2 : List Nat, ∀ a b, tiles st a (l1 ++ l2) b →
      ∃ m, tiles st a l1 m ∧ tiles st m l2 b := by
  intro l1
  induction l1 with
  | nil =>
    intro l2 a b ht
    exact ⟨a, rfl, ht⟩
  | cons p t ih =>
    intro l2 a b ht
    obtain ⟨hpa, ht2⟩ := ht
    obtain ⟨m, hm1, hm2⟩ := ih l2 (a + chunk_space st a) b ht2
    exact ⟨m, ⟨hpa, hm1⟩, hm2⟩

theorem join_left_inv {st : State} (hwf : wf_base st) (h : Nat)
    (s : State) (pos A l : Nat) (hinv : coal_inv st h s pos A)
    (hlcs : l ∈ the_chunks st) (hladj : l + chunk_space st l = pos)
    (hlfree : 0 < toInt32 (rd st l)) :
    coal_inv st h (join s l pos) l (chunk_space st l + A) := by
  obtain ⟨hby, hpw, hposcs, hA4, hAN, hhdr, hposh, hposh2, hcell, hout, hW, hH, hE⟩ :=
    hinv
  obtain ⟨e, hecs, hee⟩ := hE
  have hNle := wf_N_le hwf
  have hlsp := wf_space_ge hwf l hlcs
  have hlN := wf_mem_lt_N hwf l hlcs
  have hlval : rd s l = rd st l := (hout l hlcs (Or.inl (by omega))).1
  have hlint : toInt32 (rd st l) = ((chunk_space st l : Nat) : Int) - 2 := by
    rw [toInt32_pos_eq hlfree, chunk_space]
    push_cast
    ring
  have hsum : toInt32 (rd s l) + toInt32 (rd s pos) + 2 =
      ((chunk_space st l + A : Nat) : Int) - 2 := by
    rw [hlval, hlint, hhdr, toInt32_ofInt32 (by omega) (by push_cast; omega)]
    push_cast
    ring
  have habs : int32abs (ofInt32 (((chunk_space st l + A : Nat) : Int) - 2)) =
      chunk_space st l + A - 2 := by
    rw [int32abs_ofInt32 (by push_cast; omega) (by push_cast; omega)]
    omega
  have haddr : l + 1 + (chunk_space st l + A - 2) = pos + A - 1 := by omega
  have hjoin : join s l pos =
      wr (wr s l (ofInt32 (((chunk_space st l + A : Nat) : Int) - 2)))
        (pos + A - 1)
        (ofInt32 (((chunk_space st l + A : Nat) : Int) - 2)) := by
    rw [join, hsum, set_size_eq, habs, haddr]
  have hrdj : ∀ q, q ≠ l → q ≠ pos + A - 1 → rd (join s l pos) q = rd s q := by
    intro q hq1 hq2
    rw [hjoin, rd_wr_ne _ _ _ _ hq2, rd_wr_ne _ _ _ _ hq1]
  have hfoot : pos + A - 1 = footer_off st e := by
    rw [footer_off_eq]
    omega
  refine ⟨?_, ?_, hlcs, by omega, by omega, ?_, by omega, by omega, ?_, ?_, ?_, ?_,
    ⟨e, hecs, by omega⟩⟩
  · rw [hjoin]
    exact hby
  · rw [hjoin]
    exact hpw
  · rw [hjoin, rd_wr_ne _ _ _ _ (by omega), rd_wr_self]
  · intro hlh
    by_cases hh1 : h = pos + A - 1
    · rw [hjoin, hh1, rd_wr_self, toInt32_ofInt32 (by push_cast; omega)
        (by push_cast; omega)]
      push_cast
      omega
    · by_cases hh2 : h = pos
      · rw [hrdj h (by omega) hh1, hh2, hhdr,
          toInt32_ofInt32 (by omega) (by push_cast; omega)]
        omega
      · rw [hrdj h (by omega) hh1]
        exact hcell (by omega)
  · intro p hp hguard
    have hpsp := wf_space_ge hwf p hp
    have hpN := wf_mem_lt_N hwf p hp
    have hpf := footer_off_eq st p
    have hold := hout p hp (by omega)
    rw [hrdj p (by omega) (by omega), hrdj (footer_off st p) (by omega) (by omega)]
    exact hold
  · intro v hv
    obtain ⟨hvcs, hvfree, hvh⟩ := hv
    have h1 := link_cell_ne_tag hwf hvcs hlcs (v + 1) (Or.inl rfl)
    have h2 := link_cell_ne_tag hwf hvcs hlcs (v + 2) (Or.inr rfl)
    have h3 := link_cell_ne_tag hwf hvcs hecs (v + 1) (Or.inl rfl)
    have h4 := link_cell_ne_tag hwf hvcs hecs (v + 2) (Or.inr rfl)
    rw [hrdj (v + 1) h1.1 (by rw [hfoot]; exact h3.2),
      hrdj (v + 2) h2.1 (by rw [hfoot]; exact h4.2)]
    exact hW v ⟨hvcs, hvfree, hvh⟩
  · intro c' hc'
    have hl2 : (join s l pos).lists = s.lists := by
      rw [hjoin, wr_lists, wr_lists]
    rw [hl2]
    exact hH c' hc'

theorem coalesce_left_inv {st : State} (hwf : wf_base st) (h : Nat)
    (hhcs : h ∈ the_chunks st) :
    ∀ pre : List Nat, ∀ fuel s pos A,
      coal_inv st h s pos A →
      tiles st 0 pre pos →
      (∀ p ∈ pre, p ∈ the_chunks st) →
      pre.length < fuel →
      coal_inv st h (coalesce_left s pos fuel).2 (coalesce_left s pos fuel).1
        (A + freeSuffixSum st pre) ∧
      (coalesce_left s pos fuel).1 + freeSuffixSum st pre = pos := by
  intro pre
  induction pre using List.reverseRecOn with
  | nil =>
    intro fuel s pos A hinv htiles hsub hlen
    simp only [tiles] at htiles
    subst htiles
    rcases fuel with _ | f
    · omega
    · have hadj : get_adj_prev s 0 = none := by
        rw [get_adj_prev, if_pos rfl]
      rw [coalesce_left]
      simp only [hadj]
      have hfss : freeSuffixSum st ([] : List Nat) = 0 := rfl
      constructor
      · rw [hfss, Nat.add_zero]
        exact hinv
      · rw [hfss]
  | append_singleton pre' pk ih =>
    intro fuel s pos A hinv htiles hsub hlen
    obtain ⟨m, htpre, htk⟩ := tiles_append st pre' [pk] 0 pos htiles
    simp only [tiles] at htk
    obtain ⟨hpkm, hmend⟩ := htk
    subst hpkm
    have hpkcs : pk ∈ the_chunks st := hsub pk (by simp)
    obtain ⟨hby, hpw, hposcs, hA4, hAN, hhdr, hposh, hposh2, hcell, hout, hW, hH, hE⟩ :=
      hinv
    have hinv' : coal_inv st h s pos A :=
      ⟨hby, hpw, hposcs, hA4, hAN, hhdr, hposh, hposh2, hcell, hout, hW, hH, hE⟩
    have hNle := wf_N_le hwf
    have hpksp := wf_space_ge hwf pk hpkcs
    have hpkN := wf_mem_lt_N hwf pk hpkcs
    have hpkf := footer_off_eq st pk
    have habs2 : chunk_space st pk = int32abs (rd st pk) + 2 := rfl
    rcases fuel with _ | f
    · omega
    · have hfootval : rd s (footer_off st pk) = rd st pk := by
        rw [(hout pk hpkcs (Or.inl (by omega))).2, (wf_chunk_ok hwf pk hpkcs).2]
      have hfoot : pos - 1 = footer_off st pk := by omega
      have hadj : get_adj_prev s pos = some pk := by
        rw [get_adj_prev, if_neg (by omega), hfoot, hfootval]
        congr 1
        omega
      have hpkval : rd s pk = rd st pk := (hout pk hpkcs (Or.inl (by omega))).1
      rw [coalesce_left]
      simp only [hadj]
      by_cases hfree : 0 < toInt32 (rd st pk)
      · rw [if_pos (by rw [hpkval]; exact hfree)]
        have hinv1 := remove_step_inv hwf h hhcs s pos A pk hinv'
          ⟨hpkcs, hfree, by omega⟩
        have hinv2 := join_left_inv hwf h (remove_free_chunk s pk) pos A pk hinv1
          hpkcs hmend hfree
        obtain ⟨hres1, hres2⟩ := ih f (join (remove_free_chunk s pk) pk pos) pk
          (chunk_space st pk + A) hinv2 htpre
          (fun p hp => hsub p (List.mem_append_left _ hp))
          (by simp only [List.length_append, List.length_cons,
                List.length_nil] at hlen
              omega)
        have hfss : freeSuffixSum st (pre' ++ [pk]) =
            chunk_space st pk + freeSuffixSum st pre' := by
          rw [freeSuffixSum, List.reverse_append]
          simp only [List.reverse_cons, List.reverse_nil, List.nil_append,
            List.singleton_append]
          rw [freePrefixSum, if_pos hfree]
          rfl
        constructor
        · rw [hfss]
          have harith : A + (chunk_space st pk + freeSuffixSum st pre') =
              chunk_space st pk + A + freeSuffixSum st pre' := by omega
          rw [harith]
          exact hres1
        · rw [hfss]
          omega
      · rw [if_neg (by rw [hpkval]; exact hfree)]
        have hfss : freeSuffixSum st (pre' ++ [pk]) = 0 := by
          rw [freeSuffixSum, List.reverse_append]
          simp only [List.reverse_cons, List.reverse_nil, List.nil_append,
            List.singleton_append]
          rw [freePrefixSum, if_neg hfree]
        constructor
        · rw [hfss, Nat.add_zero]
          exact hinv'
        · rw [hfss]
          rfl

theorem probe_right_eq {st : State} (hwf : wf_base st) :
    ∀ rest : List Nat, ∀ fuel p acc,
      p ∈ the_chunks st →
      chunksFrom st (st.buffer_bytes / 4) (p + chunk_space st p)
        (st.buffer_bytes + 2) = some rest →
      (∀ q ∈ rest, q ∈ the_chunks st) →
      rest.length < fuel →
      probe_right st p acc fuel = acc + freePrefixSum st rest := by
  intro rest
  induction rest with
  | nil =>
    intro fuel p acc hpcs hparse hsub hlen
    have hend : p + chunk_space st p = st.buffer_bytes / 4 :=
      chunksFrom_nil st _ _ _ hparse
    have h4 : st.buffer_bytes = 4 * (st.buffer_bytes / 4) := by
      obtain ⟨hb4, -⟩ := hwf
      omega
    have hpf := footer_off_eq st p
    have hpsp := wf_space_ge hwf p hpcs
    rcases fuel with _ | f
    · omega
    · have hadj : get_adj_next st p = none := by
        rw [get_adj_next, if_pos (by omega)]
      rw [probe_right]
      simp only [hadj, freePrefixSum, Nat.add_zero]
  | cons r rest' ih =>
    intro fuel p acc hpcs hparse hsub hlen
    obtain ⟨hreq, hparse'⟩ := chunksFrom_cons st _ _ _ _ _ hparse
    subst hreq
    have hrcs := hsub _ (List.mem_cons_self _ _)
    have hrsp := wf_space_ge hwf _ hrcs
    have hrN := wf_mem_lt_N hwf _ hrcs
    have h4 : st.buffer_bytes = 4 * (st.buffer_bytes / 4) := by
      obtain ⟨hb4, -⟩ := hwf
      omega
    have hpf := footer_off_eq st p
    have hpsp := wf_space_ge hwf p hpcs
    rcases fuel with _ | f
    · omega
    · have hadj : get_adj_next st p = some (p + chunk_space st p) := by
        rw [get_adj_next, if_neg (by omega)]
        congr 1
        omega
      have hparse2 : chunksFrom st (st.buffer_bytes / 4)
          ((p + chunk_space st p) + chunk_space st (p + chunk_space st p))
          (st.buffer_bytes + 2) = some rest' :=
        chunksFrom_mono st _ _ _ _ _ (by omega) hparse'
      rw [probe_right]
      simp only [hadj]
      by_cases hfree : 0 < toInt32 (rd st (p + chunk_space st p))
      · rw [if_pos hfree,
          ih f (p + chunk_space st p) (acc + chunk_space st (p + chunk_space st p))
            hrcs hparse2 (fun q hq => hsub q (List.mem_cons_of_mem _ hq))
            (by simp only [List.length_cons] at hlen; omega),
          freePrefixSum, if_pos hfree]
        omega
      · rw [if_neg hfree]
        simp only [freePrefixSum, if_neg hfree, Nat.add_zero]

theorem probe_left_eq {st : State} (hwf : wf_base st) :
    ∀ pre : List Nat, ∀ fuel p acc,
      p ∈ the_chunks st →
      tiles st 0 pre p →
      (∀ q ∈ pre, q ∈ the_chunks st) →
      pre.length < fuel →
      probe_left st p acc fuel = acc + freeSuffixSum st pre := by
  intro pre
  induction pre using List.reverseRecOn with
  | nil =>
    intro fuel p acc hpcs htiles hsub hlen
    simp only [tiles] at htiles
    subst htiles
    rcases fuel with _ | f
    · omega
    · have hadj : get_adj_prev st 0 = none := by
        rw [get_adj_prev, if_pos rfl]
      rw [probe_left]
      simp only [hadj]
      have hfss : freeSuffixSum st ([] : List Nat) = 0 := rfl
      rw [hfss]
      omega
  | append_singleton pre' pk ih =>
    intro fuel p acc hpcs htiles hsub hlen
    obtain ⟨m, htpre, htk⟩ := tiles_append st pre' [pk] 0 p htiles
    simp only [tiles] at htk
    obtain ⟨hpkm, hmend⟩ := htk
    subst hpkm
    have hpkcs : pk ∈ the_chunks st := hsub pk (by simp)
    have hpksp := wf_space_ge hwf pk hpkcs
    have hpkf := footer_off_eq st pk
    have habs2 : chunk_space st pk = int32abs (rd st pk) + 2 := rfl
    rcases fuel with _ | f
    · omega
    · have hfoot : p - 1 = footer_off st pk := by omega
      have hadj : get_adj_prev st p = some pk := by
        rw [get_adj_prev, if_neg (by omega), hfoot, (wf_chunk_ok hwf pk hpkcs).2]
        congr 1
        omega
      rw [probe_left]
      simp only [hadj]
      by_cases hfree : 0 < toInt32 (rd st pk)
      · rw [if_pos hfree,
          ih f pk (acc + chunk_space st pk) hpkcs htpre
            (fun q hq => hsub q (List.mem_append_left _ hq))
            (by simp only [List.length_append, List.length_cons,
                  List.length_nil] at hlen
                omega)]
        have hfss : freeSuffixSum st (pre' ++ [pk]) =
            chunk_space st pk + freeSuffixSum st pre' := by
          rw [freeSuffixSum, List.reverse_append]
          simp only [List.reverse_cons, List.reverse_nil, List.nil_append,
            List.singleton_append]
          rw [freePrefixSum, if_pos hfree]
          rfl
        rw [hfss]
        omega
      · rw [if_neg hfree]
        have hfss : freeSuffixSum st (pre' ++ [pk]) = 0 := by
          rw [freeSuffixSum, List.reverse_append]
          simp only [List.reverse_cons, List.reverse_nil, List.nil_append,
            List.singleton_append]
          rw [freePrefixSum, if_neg hfree]
        simp only [hfss, Nat.add_zero]

theorem coal_inv_init {st : State} (h : Nat) (hwf : wf_except st h)
    (hhcs : h ∈ the_chunks st) (hfree : 0 < toInt32 (rd st h)) :
    coal_inv st h st h (chunk_space st h) := by
  obtain ⟨hwfb, hcov, hoff⟩ := hwf
  have hNle := wf_N_le hwfb
  have hsp := wf_space_ge hwfb h hhcs
  have hN := wf_mem_lt_N hwfb h hhcs
  have hlt : rd st h < 2 ^ 32 := wf_words hwfb h (by omega)
  have hhdr : rd st h = ofInt32 (((chunk_space st h : Nat) : Int) - 2) := by
    have h1 : ((chunk_space st h : Nat) : Int) - 2 = toInt32 (rd st h) := by
      rw [toInt32_pos_eq hfree, chunk_space]
      push_cast
      ring
    rw [h1, ofInt32_toInt32 hlt]
  have hmem_facts : ∀ c, c < 8 → ∀ m ∈ class_list st c, free_starts st h m := by
    intro c hc m hm
    obtain ⟨-, -, hmf⟩ := wf_lists_facts hwfb c hc
    obtain ⟨h1, h2, -⟩ := hmf m hm
    refine ⟨h1, h2, ?_⟩
    intro hmh
    subst hmh
    exact hoff c hc hm
  refine ⟨rfl, rfl, hhcs, by omega, hN, hhdr, le_refl h, by omega,
    fun hlt' => absurd hlt' (lt_irrefl h), fun p hp _ => ⟨rfl, rfl⟩, ?_, ?_,
    ⟨h, hhcs, rfl⟩⟩
  · intro v hv
    obtain ⟨hvcs, hvfree, hvh⟩ := hv
    have hvlist := hcov v hvcs hvfree hvh
    have hc8 : alloc_class (toInt32 (rd st v)) st.power < 8 :=
      Nat.lt_succ_of_le (alloc_class_le _ _)
    have hnc := walkList_next_chain st _ _ _ (wf_walk_eq hwfb _ hc8)
    have hpc := (wf_lists_facts hwfb _ hc8).2.1
    constructor
    · rcases next_chain_mem st _ hnc v hvlist with hz | hz
      · exact Or.inl hz
      · exact Or.inr (hmem_facts _ hc8 _ hz)
    · rcases prev_chain_mem st _ NIL hpc v hvlist with hz | hz
      · exact Or.inl hz
      · exact Or.inr (hmem_facts _ hc8 _ hz)
  · intro c hc
    rcases walkList_head_shape st (FUEL st) (st.lists c) (class_list st c)
      (wf_walk_eq hwfb c hc) with ⟨hnil, -⟩ | ⟨t, hshape⟩
    · exact Or.inl hnil
    · refine Or.inr (hmem_facts c hc _ ?_)
      rw [hshape]
      exact List.mem_cons_self _ _

theorem coal_inv_space {st : State} (hwf : wf_base st) {s : State}
    {h pos A : Nat} (hinv : coal_inv st h s pos A) : chunk_space s pos = A := by
  obtain ⟨-, -, -, hA4, hAN, hhdr, -, -, -, -, -, -, -⟩ := hinv
  have hNle := wf_N_le hwf
  rw [chunk_space, hhdr, int32abs_ofInt32 (by omega) (by push_cast; omega)]
  omega

/-- Claim C8: on a mid-release state (structurally well formed, with the
free chunk `h` off every list), the coalesce probe — a pure function of
the state, exactly as in the source, so it modifies nothing — returns for
every direction set exactly the span `size + 2` of the single chunk that
the destructive coalesce of `h` with the same directions produces from
that state: both walks absorb precisely the adjacent run of free
neighbours on each enabled side. -/
theorem C8_probe_refines_coalesce (st : State) (h dir : Nat)
    (hwf : wf_except st h) (hhcs : h ∈ the_chunks st)
    (hfree : 0 < toInt32 (rd st h)) :
    coalesce_probe st h dir =
      chunk_space (coalesce st h dir).2 (coalesce st h dir).1 := by
  have hwfb : wf_base st := hwf.1
  have hinit := coal_inv_init h hwf hhcs hfree
  obtain ⟨pre, rest, hsplit⟩ := List.append_of_mem hhcs
  have hchunks : chunksFrom st (st.buffer_bytes / 4) 0 (st.buffer_bytes + 2) =
      some ((pre ++ [h]) ++ rest) := by
    obtain ⟨L, hL⟩ := Option.isSome_iff_exists.mp (wf_parse hwfb)
    have hthe : the_chunks st = L := by rw [the_chunks, hL]; rfl
    have hLval : L = (pre ++ [h]) ++ rest := by
      rw [← hthe, hsplit, List.append_assoc, List.singleton_append]
    rw [← chunks, hL, hLval]
  obtain ⟨b, htl, hcf⟩ := chunksFrom_split st _ (pre ++ [h]) 0 _ rest hchunks
  obtain ⟨m, htpre, hth⟩ := tiles_append st pre [h] 0 b htl
  simp only [tiles] at hth
  obtain ⟨hhm, hmb⟩ := hth
  subst hhm
  have hparse_rest : chunksFrom st (st.buffer_bytes / 4) (h + chunk_space st h)
      (st.buffer_bytes + 2) = some rest := by
    rw [hmb]
    exact chunksFrom_mono st _ _ _ _ _ (by omega) hcf
  have hsubrest : ∀ q ∈ rest, q ∈ the_chunks st := by
    intro q hq
    rw [hsplit]
    simp [hq]
  have hsubpre : ∀ q ∈ pre, q ∈ the_chunks st := by
    intro q hq
    rw [hsplit]
    simp [hq]
  have hlen_rest : rest.length < FUEL st :=
    chunksFrom_length st _ _ _ _ hparse_rest
  have hlen_pre : pre.length < FUEL st := by
    have hfull := chunksFrom_length st _ _ _ _ hchunks
    simp only [List.length_append, List.length_cons, List.length_nil] at hfull
    have : st.buffer_bytes + 2 ≤ FUEL st := by
      rw [FUEL]
    omega
  simp only [coalesce_probe, coalesce]
  by_cases hR : Nat.land dir COAL_R ≠ 0
  · have hinv1 := coalesce_right_inv hwfb h hhcs rest (FUEL st) st
      (chunk_space st h) hinit hparse_rest hsubrest hlen_rest
    have hpr := probe_right_eq hwfb rest (FUEL st) h (chunk_space st h) hhcs
      hparse_rest hsubrest hlen_rest
    have hfuel : FUEL (coalesce_right st h (FUEL st)) = FUEL st := by
      show (coalesce_right st h (FUEL st)).buffer_bytes + 2 = st.buffer_bytes + 2
      rw [hinv1.1]
    simp only [if_pos hR, hpr, hfuel]
    by_cases hL : Nat.land dir COAL_L ≠ 0
    · simp only [if_pos hL]
      obtain ⟨hinv2, -⟩ := coalesce_left_inv hwfb h hhcs pre (FUEL st)
        (coalesce_right st h (FUEL st)) h
        (chunk_space st h + freePrefixSum st rest) hinv1 htpre hsubpre hlen_pre
      rw [coal_inv_space hwfb hinv2,
        probe_left_eq hwfb pre (FUEL st) h
          (chunk_space st h + freePrefixSum st rest) hhcs htpre hsubpre hlen_pre]
    · simp only [if_neg hL]
      show chunk_space st h + freePrefixSum st rest =
        chunk_space (coalesce_right st h (FUEL st)) h
      rw [coal_inv_space hwfb hinv1]
  · simp only [if_neg hR]
    by_cases hL : Nat.land dir COAL_L ≠ 0
    · simp only [if_pos hL]
      obtain ⟨hinv2, -⟩ := coalesce_left_inv hwfb h hhcs pre (FUEL st) st h
        (chunk_space st h) hinit htpre hsubpre hlen_pre
      rw [coal_inv_space hwfb hinv2,
        probe_left_eq hwfb pre (FUEL st) h (chunk_space st h) hhcs htpre
          hsubpre hlen_pre]
    · simp only [if_neg hL]

theorem chunksFrom_congr (st st' : State) (N : Nat) :
    ∀ f pos l, chunksFrom st N pos f = some l →
      (∀ q ∈ l, chunk_space st' q = chunk_space st q) →
      chunksFrom st' N pos f = some l := by
  intro f
  induction f with
  | zero => intro pos l hl _; simp [chunksFrom] at hl
  | succ g ih =>
    intro pos l hl hq
    rw [chunksFrom] at hl ⊢
    by_cases h1 : pos = N
    · rw [if_pos h1] at hl ⊢
      exact hl
    · rw [if_neg h1] at hl ⊢
      by_cases h2 : N < pos
      · rw [if_pos h2] at hl
        cases hl
      · rw [if_neg h2] at hl ⊢
        rcases Option.map_eq_some'.mp hl with ⟨t, ht, hlt⟩
        subst hlt
        have hsp : chunk_space st' pos = chunk_space st pos :=
          hq pos (List.mem_cons_self _ _)
        rw [hsp, ih _ _ ht (fun q hq2 => hq q (List.mem_cons_of_mem _ hq2))]
        rfl

theorem the_chunks_congr {st st' : State}
    (hN : st'.buffer_bytes = st.buffer_bytes)
    (hsp : ∀ q ∈ the_chunks st, chunk_space st' q = chunk_space st q)
    (hsome : (chunks st).isSome) :
    chunks st' = some (the_chunks st) := by
  obtain ⟨L, hL⟩ := Option.isSome_iff_exists.mp hsome
  have hthe : the_chunks st = L := by rw [the_chunks, hL]; rfl
  rw [chunks, hN, hthe]
  rw [chunks] at hL
  exact chunksFrom_congr st st' _ _ _ L hL
    (fun q hq => hsp q (by rw [hthe]; exact hq))

theorem walkList_congr (st st' : State) :
    ∀ fuel head l, walkList st head fuel = some l →
      (∀ m ∈ l, rd st' (m + 1) = rd st (m + 1)) →
      walkList st' head fuel = some l := by
  intro fuel
  induction fuel with
  | zero => intro head l hl _; simp [walkList] at hl
  | succ g ih =>
    intro head l hl hq
    rw [walkList] at hl ⊢
    by_cases h1 : head = NIL
    · rw [if_pos h1] at hl ⊢
      exact hl
    · rw [if_neg h1] at hl ⊢
      rcases Option.map_eq_some'.mp hl with ⟨t, ht, hlt⟩
      subst hlt
      rw [hq head (List.mem_cons_self _ _),
        ih _ _ ht (fun m hm => hq m (List.mem_cons_of_mem _ hm))]
      rfl

theorem prev_chain_congr (st st' : State) :
    ∀ l pv, (∀ m ∈ l, rd st' (m + 2) = rd st (m + 2)) →
      prev_chain st' pv l = prev_chain st pv l := by
  intro l
  induction l with
  | nil => intro pv _; rfl
  | cons a t ih =>
    intro pv hq
    rw [prev_chain, prev_chain, hq a (List.mem_cons_self _ _),
      ih a (fun m hm => hq m (List.mem_cons_of_mem _ hm))]

theorem coal_inv_cell_nonneg {st : State} (hwf : wf_base st) {s : State}
    {h pos A : Nat} (hinv : coal_inv st h s pos A) : 0 ≤ toInt32 (rd s h) := by
  obtain ⟨-, -, -, hA4, hAN, hhdr, hposh, -, hcell, -, -, -, -⟩ := hinv
  have hNle := wf_N_le hwf
  by_cases hph : pos = h
  · subst hph
    rw [hhdr, toInt32_ofInt32 (by omega) (by push_cast; omega)]
    omega
  · exact hcell (by omega)

theorem coalesce_coal_inv {st : State} (h dir : Nat) (hwf : wf_except st h)
    (hhcs : h ∈ the_chunks st) (hfree : 0 < toInt32 (rd st h)) :
    ∃ A, coal_inv st h (coalesce st h dir).2 (coalesce st h dir).1 A := by
  have hwfb : wf_base st := hwf.1
  have hinit := coal_inv_init h hwf hhcs hfree
  obtain ⟨pre, rest, hsplit⟩ := List.append_of_mem hhcs
  have hchunks : chunksFrom st (st.buffer_bytes / 4) 0 (st.buffer_bytes + 2) =
      some ((pre ++ [h]) ++ rest) := by
    obtain ⟨L, hL⟩ := Option.isSome_iff_exists.mp (wf_parse hwfb)
    have hthe : the_chunks st = L := by rw [the_chunks, hL]; rfl
    have hLval : L = (pre ++ [h]) ++ rest := by
      rw [← hthe, hsplit, List.append_assoc, List.singleton_append]
    rw [← chunks, hL, hLval]
  obtain ⟨b, htl, hcf⟩ := chunksFrom_split st _ (pre ++ [h]) 0 _ rest hchunks
  obtain ⟨m, htpre, hth⟩ := tiles_append st pre [h] 0 b htl
  simp only [tiles] at hth
  obtain ⟨hhm, hmb⟩ := hth
  subst hhm
  have hparse_rest : chunksFrom st (st.buffer_bytes / 4) (h + chunk_space st h)
      (st.buffer_bytes + 2) = some rest := by
    rw [hmb]
    exact chunksFrom_mono st _ _ _ _ _ (by omega) hcf
  have hsubrest : ∀ q ∈ rest, q ∈ the_chunks st := by
    intro q hq
    rw [hsplit]
    simp [hq]
  have hsubpre : ∀ q ∈ pre, q ∈ the_chunks st := by
    intro q hq
    rw [hsplit]
    simp [hq]
  have hlen_rest : rest.length < FUEL st :=
    chunksFrom_length st _ _ _ _ hparse_rest
  have hlen_pre : pre.length < FUEL st := by
    have hfull := chunksFrom_length st _ _ _ _ hchunks
    simp only [List.length_append, List.length_cons, List.length_nil] at hfull
    have : st.buffer_bytes + 2 ≤ FUEL st := by
      rw [FUEL]
    omega
  simp only [coalesce]
  by_cases hR : Nat.land dir COAL_R ≠ 0
  · have hinv1 := coalesce_right_inv hwfb h hhcs rest (FUEL st) st
      (chunk_space st h) hinit hparse_rest hsubrest hlen_rest
    have hfuel : FUEL (coalesce_right st h (FUEL st)) = FUEL st := by
      show (coalesce_right st h (FUEL st)).buffer_bytes + 2 = st.buffer_bytes + 2
      rw [hinv1.1]
    simp only [if_pos hR, hfuel]
    by_cases hL : Nat.land dir COAL_L ≠ 0
    · simp only [if_pos hL]
      obtain ⟨hinv2, -⟩ := coalesce_left_inv hwfb h hhcs pre (FUEL st)
        (coalesce_right st h (FUEL st)) h
        (chunk_space st h + freePrefixSum st rest) hinv1 htpre hsubpre hlen_pre
      exact ⟨_, hinv2⟩
    · simp only [if_neg hL]
      exact ⟨_, hinv1⟩
  · simp only [if_neg hR]
    by_cases hL : Nat.land dir COAL_L ≠ 0
    · simp only [if_pos hL]
      obtain ⟨hinv2, -⟩ := coalesce_left_inv hwfb h hhcs pre (FUEL st) st h
        (chunk_space st h) hinit htpre hsubpre hlen_pre
      exact ⟨_, hinv2⟩
    · simp only [if_neg hL]
      exact ⟨_, hinit⟩

theorem set_size_free_wf {st : State} (hwf : wf st) (h : Nat)
    (hhcs : h ∈ the_chunks st) (htaken : toInt32 (rd st h) < 0) :
    wf_except (set_size st h (int32abs (rd st h) : Int)) h ∧
      h ∈ the_chunks (set_size st h (int32abs (rd st h) : Int)) ∧
      0 < toInt32 (rd (set_size st h (int32abs (rd st h) : Int)) h) := by
  obtain ⟨hwfb, hcov⟩ := hwf
  have hNle := wf_N_le hwfb
  obtain ⟨ha2, hfoot_eq⟩ := wf_chunk_ok hwfb h hhcs
  have hN := wf_mem_lt_N hwfb h hhcs
  have hcsp : chunk_space st h = int32abs (rd st h) + 2 := rfl
  have hfo : footer_off st h = h + 1 + int32abs (rd st h) := rfl
  have habs_small : int32abs (rd st h) ≤ 2 ^ 28 := by omega
  have htow : toInt32 (ofInt32 ((int32abs (rd st h) : Nat) : Int)) =
      ((int32abs (rd st h) : Nat) : Int) :=
    toInt32_ofInt32 (by push_cast; omega) (by push_cast; omega)
  have habsw : int32abs (ofInt32 ((int32abs (rd st h) : Nat) : Int)) =
      int32abs (rd st h) := by
    rw [int32abs, htow]
    omega
  have hs1 : set_size st h (int32abs (rd st h) : Int) =
      wr (wr st h (ofInt32 ((int32abs (rd st h) : Nat) : Int)))
        (footer_off st h) (ofInt32 ((int32abs (rd st h) : Nat) : Int)) := by
    rw [set_size_eq, habsw, hfo]
  have hrdh : rd (set_size st h (int32abs (rd st h) : Int)) h =
      ofInt32 ((int32abs (rd st h) : Nat) : Int) := by
    rw [hs1, rd_wr_ne _ _ _ _ (by omega), rd_wr_self]
  have hrdf : rd (set_size st h (int32abs (rd st h) : Int)) (footer_off st h) =
      ofInt32 ((int32abs (rd st h) : Nat) : Int) := by
    rw [hs1, rd_wr_self]
  have hrdo : ∀ q, q ≠ h → q ≠ footer_off st h →
      rd (set_size st h (int32abs (rd st h) : Int)) q = rd st q := by
    intro q h1 h2
    rw [hs1, rd_wr_ne _ _ _ _ h2, rd_wr_ne _ _ _ _ h1]
  have hfree1 : 0 < toInt32 (rd (set_size st h (int32abs (rd st h) : Int)) h) := by
    rw [hrdh, htow]
    push_cast
    omega
  have hother : ∀ q ∈ the_chunks st, q ≠ h →
      rd (set_size st h (int32abs (rd st h) : Int)) q = rd st q ∧
      rd (set_size st h (int32abs (rd st h) : Int)) (footer_off st q) =
        rd st (footer_off st q) := by
    intro q hq hqh
    have hsq := wf_space_ge hwfb q hq
    have hfq := footer_off_eq st q
    have hd := chunks_disjoint st q h (wf_parse hwfb) hq hhcs hqh
    constructor
    · exact hrdo q hqh (by omega)
    · exact hrdo (footer_off st q) (by omega) (by omega)
  have hspace : ∀ q ∈ the_chunks st,
      chunk_space (set_size st h (int32abs (rd st h) : Int)) q =
        chunk_space st q := by
    intro q hq
    by_cases hqh : q = h
    · subst hqh
      rw [chunk_space, chunk_space, hrdh, habsw]
    · rw [chunk_space, chunk_space, (hother q hq hqh).1]
  have hparse1 : chunks (set_size st h (int32abs (rd st h) : Int)) =
      some (the_chunks st) :=
    the_chunks_congr (set_size_bytes st h _) hspace (wf_parse hwfb)
  have hthe1 : the_chunks (set_size st h (int32abs (rd st h) : Int)) =
      the_chunks st := by
    rw [the_chunks, hparse1]
    rfl
  have hmem_ne : ∀ c, c < 8 → ∀ m ∈ class_list st c, m ≠ h := by
    intro c hc m hm
    obtain ⟨-, -, hmf⟩ := wf_lists_facts hwfb c hc
    obtain ⟨-, hmfree, -⟩ := hmf m hm
    intro hmh
    subst hmh
    omega
  have hlinks : ∀ c, c < 8 → ∀ m ∈ class_list st c,
      rd (set_size st h (int32abs (rd st h) : Int)) (m + 1) = rd st (m + 1) ∧
      rd (set_size st h (int32abs (rd st h) : Int)) (m + 2) = rd st (m + 2) := by
    intro c hc m hm
    obtain ⟨-, -, hmf⟩ := wf_lists_facts hwfb c hc
    obtain ⟨hmcs, -, -⟩ := hmf m hm
    have l1 := link_cell_ne_tag hwfb hmcs hhcs (m + 1) (Or.inl rfl)
    have l2 := link_cell_ne_tag hwfb hmcs hhcs (m + 2) (Or.inr rfl)
    exact ⟨hrdo (m + 1) l1.1 l1.2, hrdo (m + 2) l2.1 l2.2⟩
  have hfuel1 : FUEL (set_size st h (int32abs (rd st h) : Int)) = FUEL st := by
    show (set_size st h (int32abs (rd st h) : Int)).buffer_bytes + 2 =
      st.buffer_bytes + 2
    rw [set_size_bytes]
  have hwalk1 : ∀ c, c < 8 →
      walkList (set_size st h (int32abs (rd st h) : Int))
        ((set_size st h (int32abs (rd st h) : Int)).lists c)
        (FUEL (set_size st h (int32abs (rd st h) : Int))) =
      some (class_list st c) := by
    intro c hc
    rw [hfuel1, set_size_lists]
    exact walkList_congr st _ (FUEL st) (st.lists c) (class_list st c)
      (wf_walk_eq hwfb c hc) (fun m hm => (hlinks c hc m hm).1)
  have hclass1 : ∀ c, c < 8 →
      class_list (set_size st h (int32abs (rd st h) : Int)) c =
        class_list st c := by
    intro c hc
    rw [class_list, hwalk1 c hc]
    rfl
  have hwfb1 : wf_base (set_size st h (int32abs (rd st h) : Int)) := by
    obtain ⟨g1, g2, g3, g4, g5, g6, -, g8, -, g10⟩ := id hwfb
    refine ⟨?_, ?_, ?_, ?_, ?_, ?_, ?_, ?_, ?_, ?_⟩
    · rw [set_size_bytes]; exact g1
    · rw [set_size_bytes]; exact g2
    · rw [set_size_bytes]; exact g3
    · rw [set_size_power]; exact g4
    · rw [set_size_power]; exact g5
    · intro i hi
      rw [set_size_bytes] at hi
      by_cases h1 : i = h
      · subst h1
        rw [hrdh]
        exact ofInt32_lt _
      · by_cases h2 : i = footer_off st h
        · subst h2
          rw [hrdf]
          exact ofInt32_lt _
        · rw [hrdo i h1 h2]
          exact g6 i hi
    · rw [hparse1]
      rfl
    · intro q hq
      rw [hthe1] at hq
      by_cases hqh : q = h
      · subst hqh
        constructor
        · rw [hrdh, habsw]
          omega
        · have hf1 : footer_off (set_size st q (int32abs (rd st q) : Int)) q =
              footer_off st q := by
            rw [footer_off, footer_off, hrdh, habsw]
          rw [hf1, hrdf, hrdh]
      · have hro := (hother q hq hqh).1
        have hrf := (hother q hq hqh).2
        have hf1 : footer_off (set_size st h (int32abs (rd st h) : Int)) q =
            footer_off st q := by
          rw [footer_off, footer_off, hro]
        rw [hf1, hro, hrf]
        exact g8 q hq
    · intro c hc
      rw [hwalk1 c hc]
      rfl
    · intro c hc
      rw [hclass1 c hc]
      obtain ⟨k1, k2, k3⟩ := g10 c hc
      refine ⟨k1, ?_, ?_⟩
      · rw [prev_chain_congr st _ (class_list st c) NIL
          (fun m hm => (hlinks c hc m hm).2)]
        exact k2
      · intro m hm
        obtain ⟨m1, m2, m3⟩ := k3 m hm
        have hmh := hmem_ne c hc m hm
        refine ⟨?_, ?_, ?_⟩
        · rw [hthe1]
          exact m1
        · rw [(hother m m1 hmh).1]
          exact m2
        · rw [(hother m m1 hmh).1, set_size_power]
          exact m3
  refine ⟨⟨hwfb1, ?_, ?_⟩, ?_, hfree1⟩
  · intro v hv hvfree hvh
    rw [hthe1] at hv
    rw [(hother v hv hvh).1] at hvfree ⊢
    rw [set_size_power, hclass1 _ (Nat.lt_succ_of_le (alloc_class_le _ _))]
    exact hcov v hv hvfree
  · intro c hc
    rw [hclass1 c hc]
    intro hmem
    exact (hmem_ne c hc h hmem) rfl
  · rw [hthe1]
    exact hhcs

theorem balloc_free_noop {st : State} (p : Nat)
    (hnn : 0 ≤ toInt32 (rd st (from_ptr p))) :
    balloc_free st (some p) = st := by
  simp only [balloc_free]
  by_cases hc : check_meta st (from_ptr p)
  · rw [if_neg (not_not_intro hc), if_pos hnn]
  · rw [if_pos hc]

theorem balloc_free_dealloc {st : State} (p : Nat)
    (hcm : check_meta st (from_ptr p) = true)
    (hneg : toInt32 (rd st (from_ptr p)) < 0) :
    balloc_free st (some p) = deallocate st (from_ptr p) := by
  simp only [balloc_free]
  rw [if_neg (not_not_intro hcm), if_neg (by omega)]

theorem deallocate_eq (st : State) (h : Nat) :
    deallocate st h =
      add_free_chunk
        (coalesce (set_size st h (int32abs (rd st h) : Int)) h
          (Nat.lor COAL_L COAL_R)).2
        (coalesce (set_size st h (int32abs (rd st h) : Int)) h
          (Nat.lor COAL_L COAL_R)).1 := rfl

/-- Claim C6: releasing the same pointer twice in succession leaves the
arena and the free lists exactly as after the single release: the first
release flips the header nonnegative (the coalesced chunk's tag, and the
cell at the original header when the chunk was absorbed leftwards), so the
second `balloc_free` passes through the header-equals-footer and
negative-header checks, fails at least one of them, and mutates nothing. -/
theorem C6_double_free (st : State) (p : Nat) (hwf : wf st)
    (hmem : from_ptr p ∈ the_chunks st)
    (htaken : toInt32 (rd st (from_ptr p)) < 0) :
    balloc_free (balloc_free st (some p)) (some p) = balloc_free st (some p) := by
  have hwfb := hwf.1
  have hcm : check_meta st (from_ptr p) = true := by
    rw [check_meta, (wf_chunk_ok hwfb _ hmem).2]
    exact beq_self_eq_true _
  obtain ⟨hwfe1, hmem1, hfree1⟩ := set_size_free_wf hwf (from_ptr p) hmem htaken
  have hwfb1 : wf_base (set_size st (from_ptr p)
      (int32abs (rd st (from_ptr p)) : Int)) := hwfe1.1
  obtain ⟨A, hinv⟩ := coalesce_coal_inv (from_ptr p) (Nat.lor COAL_L COAL_R)
    hwfe1 hmem1 hfree1
  have hnn2 : 0 ≤ toInt32 (rd (coalesce (set_size st (from_ptr p)
      (int32abs (rd st (from_ptr p)) : Int)) (from_ptr p)
      (Nat.lor COAL_L COAL_R)).2 (from_ptr p)) :=
    coal_inv_cell_nonneg hwfb1 hinv
  obtain ⟨c1, c2, hposcs, hA4, hAN, hhdr, hposh, hposh2, hcell0, hout, hW, hH, hE⟩ :=
    hinv
  have hsep : (coalesce (set_size st (from_ptr p)
      (int32abs (rd st (from_ptr p)) : Int)) (from_ptr p)
      (Nat.lor COAL_L COAL_R)).1 + 4 ≤ from_ptr p ∨
      (coalesce (set_size st (from_ptr p)
        (int32abs (rd st (from_ptr p)) : Int)) (from_ptr p)
        (Nat.lor COAL_L COAL_R)).1 = from_ptr p := by
    by_cases hpe : (coalesce (set_size st (from_ptr p)
        (int32abs (rd st (from_ptr p)) : Int)) (from_ptr p)
        (Nat.lor COAL_L COAL_R)).1 = from_ptr p
    · exact Or.inr hpe
    · have hd2 := chunks_disjoint _ _ _ (wf_parse hwfb1) hposcs hmem1 hpe
      have hs1 := wf_space_ge hwfb1 _ hposcs
      have hs2 := wf_space_ge hwfb1 _ hmem1
      left
      omega
  have hrdeq : rd (add_free_chunk (coalesce (set_size st (from_ptr p)
      (int32abs (rd st (from_ptr p)) : Int)) (from_ptr p)
      (Nat.lor COAL_L COAL_R)).2 (coalesce (set_size st (from_ptr p)
      (int32abs (rd st (from_ptr p)) : Int)) (from_ptr p)
      (Nat.lor COAL_L COAL_R)).1) (from_ptr p) =
      rd (coalesce (set_size st (from_ptr p)
        (int32abs (rd st (from_ptr p)) : Int)) (from_ptr p)
        (Nat.lor COAL_L COAL_R)).2 (from_ptr p) := by
    rw [add_free_chunk]
    apply add_chunk_list_rd _ _ _ _
      (free_starts (set_size st (from_ptr p)
        (int32abs (rd st (from_ptr p)) : Int)) (from_ptr p))
      (fun v hv => (hW v hv).1)
      (hH _ (Nat.lt_succ_of_le (alloc_class_le _ _)))
      _ ?_ (by omega) (by omega)
    intro v hv
    obtain ⟨hvcs, -, -⟩ := hv
    have l1 := link_cell_ne_tag hwfb1 hvcs hmem1 (v + 1) (Or.inl rfl)
    have l2 := link_cell_ne_tag hwfb1 hvcs hmem1 (v + 2) (Or.inr rfl)
    exact ⟨Ne.symm l1.1, Ne.symm l2.1⟩
  have hfirst : balloc_free st (some p) =
      add_free_chunk (coalesce (set_size st (from_ptr p)
        (int32abs (rd st (from_ptr p)) : Int)) (from_ptr p)
        (Nat.lor COAL_L COAL_R)).2 (coalesce (set_size st (from_ptr p)
        (int32abs (rd st (from_ptr p)) : Int)) (from_ptr p)
        (Nat.lor COAL_L COAL_R)).1 := by
    rw [balloc_free_dealloc p hcm htaken, deallocate_eq]
  rw [hfirst]
  apply balloc_free_noop
  rw [hrdeq]
  exact hnn2

theorem C6_double_free_witness :
    wf stC2 ∧ from_ptr 1 ∈ the_chunks stC2 ∧
      toInt32 (rd stC2 (from_ptr 1)) < 0 ∧
      balloc_free (balloc_free stC2 (some 1)) (some 1) =
        balloc_free stC2 (some 1) :=
  ⟨by decide, by decide, by decide,
    C6_double_free stC2 1 (by decide) (by decide) (by decide)⟩

theorem C8_probe_refines_coalesce_witness :
    wf_except stC8 0 ∧ 0 ∈ the_chunks stC8 ∧ 0 < toInt32 (rd stC8 0) ∧
      coalesce_probe stC8 0 3 =
        chunk_space (coalesce stC8 0 3).2 (coalesce stC8 0 3).1 :=
  ⟨by decide, by decide, by decide,
    C8_probe_refines_coalesce stC8 0 3 (by decide) (by decide) (by decide)⟩

set_option maxRecDepth 100000 in
/-- Claim C1 (refuted): the after-operation invariant does not survive
every legal operation sequence.  Along the trace `init` (zeroed 1048-byte
arena, `power = 1`), `allocate(520)` (returning the pointer at word 1),
then `resize` of that pointer to `2^33` bytes, the invariant holds after
`init` and after `allocate`, and the resize returns a fresh non-nil
pointer — but afterwards the chunk at word 132 has header `-128` and
footer `0`: `round_up` truncates `(2^33 + 3) >> 2` to the `uint32`
`2^31`, `find_best_chunk` casts it to the `int32` `-2^31`, which any
class-7 chunk satisfies, and the relocation then copies the original 130
payload words into the fresh 128-word chunk, overrunning its footer (and
the arena end by one word). -/
theorem C1_invariant_broken :
    tiling_meta stC1_0 ∧ tiling_meta stC1_1 ∧
    (balloc_realloc stC1_1 (balloc_malloc stC1_0 520).1 (2 ^ 33)).1 =
      some 133 ∧
    rd stC1_2 132 = ofInt32 (-128) ∧ footer_off stC1_2 132 = 261 ∧
    rd stC1_2 261 = 0 ∧ 132 ∈ the_chunks stC1_2 ∧
    ¬ tiling_meta stC1_2 := by decide

end Balloc
